import Mathlib

/-! RainCache: a shallow embedding of the read path and of the LFU cache.

The development follows the Go sources:

* `lfu/lfu.go`            -> namespace `lfu`
* `singleflight/singleflight.go` -> namespace `singleflight`
* `consistenthash/consistenthash.go` -> namespace `consistenthash`
* `byteview.go`, `cache.go`, `peers.go`, `raincache.go` -> namespace `rainCache`

Conventions of the embedding.

* A Go map is an association list (`GoMap`) with the three operations the sources use:
  lookup (`m[k]` with the comma-ok form), assignment (`m[k] = v`) and `delete(m, k)`.
  The sources never iterate over a map.
* A call that panics (nil dereference, failed type assertion, explicit `panic`) or that
  never returns is modelled by the result `none`; a call that returns is `some _`.
* Go functions returning `(T, error)` return a pair `T × Option Error` (`none` is `nil`).
* `int64` counters (`len`, `freq`, `minFreq`) are incremented by one per call; they are
  modelled on `Int`, wrap-around would need more than `2^63` calls.
* The mutexes are not modelled: every method body runs under its lock, the embedding is
  the sequential semantics of one call at a time. Calls to `log.Println` are omitted.
-/

/-! ## Go maps -/

/-- A Go map as an association list; every key occurs at most once when the list is built
with `GoMap.set` and `GoMap.delete` from the empty list. -/
abbrev GoMap (K : Type) (V : Type) := List (K × V)

namespace GoMap

variable {K V : Type} [DecidableEq K]

/-- The comma-ok lookup `v, ok := m[k]`: `some v` when `ok`, `none` otherwise. -/
def get? : GoMap K V → K → Option V
  | [], _ => none
  | (k', v) :: t, k => if k' = k then some v else get? t k

/-- The assignment `m[k] = v`: replaces the value of an existing key, adds a new key. -/
def set : GoMap K V → K → V → GoMap K V
  | [], k, v => [(k, v)]
  | (k', v') :: t, k, v => if k' = k then (k, v) :: t else (k', v') :: set t k v

/-- The builtin `delete(m, k)`. -/
def delete (m : GoMap K V) (k : K) : GoMap K V :=
  m.filter (fun p => decide (p.1 ≠ k))

/-- The keys stored in the map. -/
def keys (m : GoMap K V) : List K := m.map Prod.fst

end GoMap

/-! ## lfu/lfu.go -/

namespace lfu

/-- The struct `Object`: one key/value entry with its access frequency. -/
structure Object (V : Type) where
  key : String
  value : V
  freq : Int
deriving DecidableEq, Repr

/-- The constructor `InitObject`. -/
def InitObject {V : Type} (k : String) (v : V) (freq : Int) : Object V :=
  { key := k, value := v, freq := freq }

/-- The struct `Cache`. A `*list.Element` is represented by the `Object` it carries, and a
`*list.List` by the list of its elements, front first: `objectMap[k]` is the element of
key `k`, `freqMap[f]` is the bucket of frequency `f`. The field `OnEvicted` is stored by
`New` and read by no method of the package; it is not part of the state. -/
structure Cache (V : Type) where
  len : Int
  cap : Int
  minFreq : Int
  objectMap : GoMap String (Object V)
  freqMap : GoMap Int (List (Object V))
deriving DecidableEq, Repr

/-- The constant `math.MaxInt` on a 64-bit platform. -/
def maxInt : Int := 9223372036854775807

variable {V : Type}

/-- The function `New(capacity, onEvicted)`. -/
def New (capacity : Int) : Cache V :=
  { len := 0, cap := capacity, minFreq := maxInt, objectMap := [], freqMap := [] }

/-- The bucket of frequency `f` as a list, empty when `freqMap` has no such key. -/
def Cache.bucket (c : Cache V) (f : Int) : List (Object V) :=
  match c.freqMap.get? f with
  | some l => l
  | none => []

/-- The method `insertMap`: push `ob` at the front of the bucket of `ob.freq` (created when
missing) and let `objectMap[ob.key]` point to the new element. -/
def Cache.insertMap (c : Cache V) (ob : Object V) : Cache V :=
  let l := match c.freqMap.get? ob.freq with
    | some l => l
    | none => []
  { c with
    freqMap := c.freqMap.set ob.freq (ob :: l)
    objectMap := c.objectMap.set ob.key ob }

/-- The call `oldList.Remove(e)` of `container/list`: the element of `e` is taken out of the
list; a list that does not hold it is left as it is. -/
def listRemove (l : List (Object V)) (e : Object V) : List (Object V) :=
  l.eraseP (fun o => decide (o.key = e.key))

/-- The method `increaseFreq`. With no bucket for `ob.freq` the pointer `oldList` is nil:
`Remove` on it does nothing and `oldList.Len()` dereferences nil, which is reached only
when `c.minFreq == ob.freq`. -/
def Cache.increaseFreq (c : Cache V) (e : Object V) : Option (Cache V) :=
  match c.freqMap.get? e.freq with
  | none =>
    if c.minFreq = e.freq then none
    else some (c.insertMap { e with freq := e.freq + 1 })
  | some oldList =>
    let oldList1 := listRemove oldList e
    let c1 : Cache V := { c with freqMap := c.freqMap.set e.freq oldList1 }
    let c2 : Cache V :=
      if c1.minFreq = e.freq ∧ oldList1.length = 0 then { c1 with minFreq := c1.minFreq + 1 }
      else c1
    some (c2.insertMap { e with freq := e.freq + 1 })

/-- The method `eliminate`: `l.Back()` on a nil list and `e.Value` on a nil element both
dereference nil. -/
def Cache.eliminate (c : Cache V) : Option (Cache V) :=
  match c.freqMap.get? c.minFreq with
  | none => none
  | some l =>
    match l.getLast? with
    | none => none
    | some ob =>
      some { c with
        freqMap := c.freqMap.set c.minFreq l.dropLast
        objectMap := c.objectMap.delete ob.key }

/-- The method `Get`; the result is `(value, ok)`, `value` being the nil interface on a
miss. -/
def Cache.Get (c : Cache V) (key : String) : Option ((Option V × Bool) × Cache V) :=
  match c.objectMap.get? key with
  | some e =>
    match c.increaseFreq e with
    | none => none
    | some c1 => some ((some e.value, true), c1)
  | none => some ((none, false), c)

/-- The method `Add`. -/
def Cache.Add (c : Cache V) (key : String) (value : V) : Option (Cache V) :=
  match c.objectMap.get? key with
  | some e => c.increaseFreq { e with value := value }
  | none =>
    let ob := InitObject key value 1
    let evicted : Option (Cache V) :=
      if c.len = c.cap then
        match c.eliminate with
        | none => none
        | some c1 => some { c1 with len := c1.len - 1 }
      else some c
    match evicted with
    | none => none
    | some c1 =>
      let c2 := c1.insertMap ob
      some { c2 with minFreq := 1, len := c2.len + 1 }

/-- One call on the cache, as it appears in a history of calls. -/
inductive Op (V : Type) where
  | add (key : String) (value : V)
  | get (key : String)
deriving DecidableEq, Repr

/-- The key a call names. -/
def Op.key : Op V → String
  | Op.add k _ => k
  | Op.get k => k

/-- The state after one call (the value a `Get` returns is dropped). -/
def Cache.step (c : Cache V) : Op V → Option (Cache V)
  | Op.add k v => c.Add k v
  | Op.get k => (c.Get k).map Prod.snd

/-- The state after a history of calls, `none` as soon as one of them fails. -/
def Cache.run (c : Cache V) : List (Op V) → Option (Cache V)
  | [] => some c
  | op :: ops =>
    match c.step op with
    | none => none
    | some c1 => c1.run ops

/-- The 1-based position in the history of the last call that names `k`; `0` when no call
names it. For a key that is in the cache this call is its last touch: its insertion, a
`Get` hit or an update by `Add`. -/
def lastTouch (ops : List (Op V)) (k : String) : Nat :=
  ops.length - (ops.reverse.map Op.key).indexOf k

/-- The value of the last `Add` of the history that names `k`. -/
def lastAdded (ops : List (Op V)) (k : String) : Option V :=
  ops.reverse.findSome? (fun op =>
    match op with
    | Op.add k1 v => if k1 = k then some v else none
    | Op.get _ => none)

/-- The entry `o` with the value `v` stored in it when it is the entry of the key `k`; any
other entry as it is. -/
def Object.storing (k : String) (v : V) (o : Object V) : Object V :=
  if o.key = k then { o with value := v } else o

/-- The part of the representation invariant that holds during a call as well: after the
history `ops` the keys of `objectMap` are distinct and counted by `len`, `objectMap` and the
buckets hold the same entries, each in the bucket of its frequency, every bucket is ordered
by last touch, most recent first, and each entry carries the value last added for its key. -/
structure InvCore (ops : List (Op V)) (c : Cache V) : Prop where
  nodup : (GoMap.keys c.objectMap).Nodup
  len_eq : c.len = (GoMap.keys c.objectMap).length
  obj : ∀ k ob, c.objectMap.get? k = some ob →
    ob.key = k ∧ 1 ≤ ob.freq ∧ ob ∈ c.bucket ob.freq
  bkt : ∀ f, ∀ o ∈ c.bucket f, o.freq = f ∧ c.objectMap.get? o.key = some o
  order : ∀ f, (c.bucket f).Pairwise (fun a b => lastTouch ops b.key < lastTouch ops a.key)
  value : ∀ k ob, c.objectMap.get? k = some ob → lastAdded ops k = some ob.value

/-- The representation invariant between two calls: `InvCore`, and `minFreq` is the smallest
frequency in use as soon as the cache holds an entry. -/
structure Inv (ops : List (Op V)) (c : Cache V) extends InvCore ops c : Prop where
  min : 0 < c.len → c.bucket c.minFreq ≠ [] ∧
    ∀ k ob, c.objectMap.get? k = some ob → c.minFreq ≤ ob.freq

end lfu

/-- A Go `error` value, identified by its message. -/
abbrev Error := String

/-! ## singleflight/singleflight.go -/

namespace singleflight

/-- The struct `call`. The wait group is its flag `done`: `false` between `wg.Add(1)` and
`wg.Done()`. The field `val` is an `interface{}`, `none` is the nil interface. -/
structure call (R : Type) where
  done : Bool
  val : Option R
  err : Option Error

/-- The struct `Group`: the map `m` of the calls in flight, `none` while it is nil. -/
structure Group (R : Type) where
  m : Option (GoMap String (call R))

/-- The method `Do` for one caller running alone. `fn` is a closure over a state `σ`, which
it may change; it returns `none` when it panics. A record found for `key` is waited for:
`wg.Wait()` returns at once when the record is done and never returns otherwise, as no
other caller is running. -/
def Group.Do {R σ : Type} (g : Group R) (key : String)
    (fn : σ → Option ((Option R × Option Error) × σ)) (st : σ) :
    Option ((Option R × Option Error) × Group R × σ) :=
  let m : GoMap String (call R) := match g.m with
    | none => []
    | some m => m
  match m.get? key with
  | some c => if c.done then some ((c.val, c.err), { m := some m }, st) else none
  | none =>
    let c : call R := { done := false, val := none, err := none }
    let m1 := m.set key c
    match fn st with
    | none => none
    | some ((val, err), st1) =>
      let c1 : call R := { done := true, val := val, err := err }
      let m2 := (m1.set key c1).delete key
      some ((c1.val, c1.err), { m := some m2 }, st1)

end singleflight

/-! ## byteview.go, cache.go, peers.go, raincache.go -/

namespace rainCache

/-- The struct `ByteView`; the nil slice and the empty slice are both `[]`. -/
structure ByteView where
  b : List UInt8
deriving DecidableEq, Repr

/-- The method `ByteView.Len`. -/
def ByteView.Len (v : ByteView) : Int := v.b.length

/-- The builtin `copy(dst, src)`: the first `min(len(dst), len(src))` elements of `dst` are
overwritten with those of `src`. -/
def copy (dst src : List UInt8) : List UInt8 :=
  src.take dst.length ++ dst.drop src.length

/-- The function `cloneBytes`: `make([]byte, len(b))` followed by `copy(c, b)`. -/
def cloneBytes (b : List UInt8) : List UInt8 :=
  copy (List.replicate b.length 0) b

/-- The method `ByteView.ByteSlice`. -/
def ByteView.ByteSlice (v : ByteView) : List UInt8 := cloneBytes v.b

/-- The struct `cache`: the LFU cache, `none` until the first `add`, and `cacheBytes`. -/
structure cache where
  lfu : Option (lfu.Cache ByteView)
  cacheBytes : Int
deriving DecidableEq, Repr

/-- The method `cache.add`. -/
def cache.add (c : cache) (key : String) (value : ByteView) : Option cache :=
  let l : lfu.Cache ByteView := match c.lfu with
    | none => lfu.New c.cacheBytes
    | some l => l
  match l.Add key value with
  | none => none
  | some l1 => some { c with lfu := some l1 }

/-- The method `cache.get`; `v.(ByteView)` panics on the nil interface. -/
def cache.get (c : cache) (key : String) : Option ((ByteView × Bool) × cache) :=
  match c.lfu with
  | none => some ((⟨[]⟩, false), c)
  | some l =>
    match l.Get key with
    | none => none
    | some ((v, ok), l1) =>
      if ok then
        match v with
        | some bv => some ((bv, ok), { c with lfu := some l1 })
        | none => none
      else some ((⟨[]⟩, false), { c with lfu := some l1 })

/-- The message `raincachepb.Request`. -/
structure Request where
  Group : String
  Key : String
deriving DecidableEq, Repr

/-- The message `raincachepb.Response`. -/
structure Response where
  Value : List UInt8
deriving DecidableEq, Repr

/-- The interface `PeerGetter`: `Get(in, out)` returns `out` as the peer left it and the
error. -/
structure PeerGetter where
  Get : Request → Response → Response × Option Error

/-- The interface `PeerPicker`: `PickPeer(key)` returns `(peer, ok)`. -/
structure PeerPicker where
  PickPeer : String → PeerGetter × Bool

/-- The interface `Getter`, the callback to the source of the data. -/
structure Getter where
  Get : String → List UInt8 × Option Error

/-- A call made to the cache or to a collaborator of the group; the history of these calls
is kept beside the state to say which of them a method has made. -/
inductive Call where
  | cacheGet (key : String)
  | cacheAdd (key : String)
  | getter (key : String)
  | pickPeer (key : String)
  | peerGet (req : Request)
deriving DecidableEq, Repr

/-- The struct `Group`. `peers` is `none` while the interface value is nil. `calls` is not a
field of the Go struct: it records, oldest first, the calls made so far to `mainCache`, to
`getter`, to `peers` and to the peers it picked. -/
structure Group where
  name : String
  getter : Getter
  mainCache : cache
  peers : Option PeerPicker
  loader : singleflight.Group ByteView
  calls : List Call

/-- The method `RegisterPeers`; `none` is the panic. -/
def Group.RegisterPeers (g : Group) (peers : Option PeerPicker) : Option Group :=
  if g.peers.isSome then none
  else some { g with peers := peers }

/-- The function `NewGroup` with the package variable `groups` passed in and out; `none` is
the panic on a nil `getter`. -/
def NewGroup (groups : GoMap String Group) (name : String) (cacheBytes : Int)
    (getter : Option Getter) : Option (Group × GoMap String Group) :=
  match getter with
  | none => none
  | some gt =>
    let g : Group :=
      { name := name
        getter := gt
        mainCache := { lfu := none, cacheBytes := cacheBytes }
        peers := none
        loader := { m := none }
        calls := [] }
    some (g, groups.set name g)

/-- The function `GetGroup`; `none` is the nil pointer. -/
def GetGroup (groups : GoMap String Group) (name : String) : Option Group :=
  groups.get? name

/-- The method `getFromPeer`. -/
def Group.getFromPeer (g : Group) (peer : PeerGetter) (key : String) :
    (ByteView × Option Error) × Group :=
  let req : Request := { Group := g.name, Key := key }
  let res : Response := { Value := [] }
  let out := peer.Get req res
  let g1 : Group := { g with calls := g.calls ++ [Call.peerGet req] }
  match out.2 with
  | some err => ((⟨[]⟩, some err), g1)
  | none => ((⟨out.1.Value⟩, none), g1)

/-- The method `populateCache`. -/
def Group.populateCache (g : Group) (key : String) (value : ByteView) : Option Group :=
  match g.mainCache.add key value with
  | none => none
  | some c1 => some { g with mainCache := c1, calls := g.calls ++ [Call.cacheAdd key] }

/-- The method `getLocally`. -/
def Group.getLocally (g : Group) (key : String) : Option ((ByteView × Option Error) × Group) :=
  let out := g.getter.Get key
  let g1 : Group := { g with calls := g.calls ++ [Call.getter key] }
  match out.2 with
  | some err => some ((⟨[]⟩, some err), g1)
  | none =>
    let value : ByteView := ⟨cloneBytes out.1⟩
    match g1.populateCache key value with
    | none => none
    | some g2 => some ((value, none), g2)

/-- The closure that `load` passes to `loader.Do`. -/
def Group.loadFn (key : String) (g : Group) :
    Option ((Option ByteView × Option Error) × Group) :=
  let wrap (r : Option ((ByteView × Option Error) × Group)) :
      Option ((Option ByteView × Option Error) × Group) :=
    r.map (fun x => ((some x.1.1, x.1.2), x.2))
  match g.peers with
  | some picker =>
    let g1 : Group := { g with calls := g.calls ++ [Call.pickPeer key] }
    let picked := picker.PickPeer key
    if picked.2 then
      let fetched := g1.getFromPeer picked.1 key
      match fetched.1.2 with
      | none => some ((some fetched.1.1, none), fetched.2)
      | some _ => wrap (fetched.2.getLocally key)
    else wrap (g1.getLocally key)
  | none => wrap (g.getLocally key)

/-- The method `load`. The results are named `(vale, err)` and `viewi, err := ...` assigns
the named `err`: with `err != nil` the method returns `viewi.(ByteView), nil`, otherwise the
bare `return` returns `vale`, still the zero `ByteView`, and `err`. -/
def Group.load (g : Group) (key : String) : Option ((ByteView × Option Error) × Group) :=
  let vale : ByteView := ⟨[]⟩
  match g.loader.Do key (Group.loadFn key) g with
  | none => none
  | some ((viewi, err), loader1, g1) =>
    let g2 : Group := { g1 with loader := loader1 }
    match err with
    | some _ =>
      match viewi with
      | some bv => some ((bv, none), g2)
      | none => none
    | none => some ((vale, err), g2)

/-- The method `Get`. -/
def Group.Get (g : Group) (key : String) : Option ((ByteView × Option Error) × Group) :=
  if key = "" then some ((⟨[]⟩, some "key is required"), g)
  else
    match g.mainCache.get key with
    | none => none
    | some ((v, ok), c1) =>
      let g1 : Group := { g with mainCache := c1, calls := g.calls ++ [Call.cacheGet key] }
      if ok then some ((v, none), g1)
      else g1.load key

/-- The value the guarded cache holds for `key`; `none` when the key is not in the cache. -/
def cache.lookup (c : cache) (key : String) : Option ByteView :=
  match c.lfu with
  | none => none
  | some l => (l.objectMap.get? key).map (fun ob => ob.value)

/-- The states of the guarded cache that `cache.add` and `cache.get` produce: the LFU cache
is not allocated yet, or it is the one `lfu.New(cacheBytes, nil)` made, after some calls of
`Add` and `Get`. -/
def cache.Valid (c : cache) : Prop :=
  match c.lfu with
  | none => True
  | some l => ∃ ops, (lfu.New c.cacheBytes : lfu.Cache ByteView).run ops = some l

/-- A source callback that returns the bytes `b` for every key. -/
def sourceOf (b : List UInt8) : Getter :=
  { Get := fun _ => (b, none) }

/-- A source callback that fails with the error `e` for every key. -/
def failingSource (e : Error) : Getter :=
  { Get := fun _ => ([], some e) }

/-- A peer that answers every request with the bytes `b`. -/
def peerReturning (b : List UInt8) : PeerGetter :=
  { Get := fun _ _ => ({ Value := b }, none) }

/-- A peer whose every fetch fails with the error `e`. -/
def failingPeer (e : Error) : PeerGetter :=
  { Get := fun _ out => (out, some e) }

/-- A picker that selects the peer `p` for every key. -/
def pickerOf (p : PeerGetter) : PeerPicker :=
  { PickPeer := fun _ => (p, true) }

/-- The group `NewGroup(name, cacheBytes, getter)` followed by `RegisterPeers(peers)` when
`peers` is given, starting from an empty registry. -/
def setup (name : String) (cacheBytes : Int) (getter : Getter) (peers : Option PeerPicker) :
    Option Group :=
  match NewGroup [] name cacheBytes (some getter) with
  | none => none
  | some (g, _) =>
    match peers with
    | none => some g
    | some p => g.RegisterPeers (some p)

/-- The group `NewGroup("scores", 0, getter)` with a picker registered that selects, for
every key, a peer whose fetch fails; the callback returns the byte `7` for every key. -/
def zeroCapacityGroup : Group :=
  { name := "scores"
    getter := sourceOf [7]
    mainCache := { lfu := none, cacheBytes := 0 }
    peers := some (pickerOf (failingPeer "down"))
    loader := { m := none }
    calls := [] }

end rainCache

namespace singleflight

/-- Whether the map of the group holds a record for `key`, that is whether a call for `key`
is in flight. -/
def Group.inflight {R : Type} (g : Group R) (key : String) : Bool :=
  match g.m with
  | none => false
  | some m => (m.get? key).isSome

/-! ### Several callers of `Do` at once

The calls of `Do` by several goroutines are interleaved. Each caller goes through the
statements of `Do` in order; the statements between `g.mu.Lock()` and `g.mu.Unlock()` are
one step, as the mutex lets no other caller into them, and `c.wg.Wait()` is a step that
can be taken only after `c.wg.Done()`. Any caller that can take a step may take the next
one. A record `*call` is an index into the list of the records allocated so far. -/

/-- Where a caller is in `Do`. `c` is the record the caller holds. -/
inductive Pc (R : Type) where
  /-- Before `g.mu.Lock()`. -/
  | start
  /-- The caller registered `c` in the first locked region; `fn()` is next. -/
  | running (c : Nat)
  /-- The caller did `c.val, c.err = fn()`; `c.wg.Done()` is next. -/
  | computed (c : Nat)
  /-- The caller did `c.wg.Done()`; the locked `delete(g.m, key)` and the return are next. -/
  | ran (c : Nat)
  /-- The caller found `c` in the map in the first locked region; it is in `c.wg.Wait()`. -/
  | waiting (c : Nat)
  /-- The caller returned `(val, err)`, read from the record `c`. -/
  | returned (c : Nat) (val : Option R) (err : Option Error)
  /-- The call of `fn` by the caller panicked. -/
  | crashed (c : Nat)
deriving DecidableEq, Repr

/-- One caller of `Do`: its arguments `key` and `fn`, a closure over the state `σ`. -/
structure Caller (R σ : Type) where
  key : String
  fn : σ → Option ((Option R × Option Error) × σ)

/-- The state shared by the callers: the map `g.m` from keys to records, the records
allocated so far, where each caller is, and the state `fn` works on. `runs` is not a part
of the program: it lists, oldest first, the executions of `fn` that have returned, each
with the record of the caller that ran it and the pair it returned. -/
structure Shared (R σ : Type) where
  m : Option (GoMap String Nat)
  heap : List (call R)
  pcs : List (Pc R)
  st : σ
  runs : List (Nat × (Option R × Option Error))

/-- The next step of the caller number `t`; `none` when it has none: the caller has
returned or crashed, it waits for a record that is not done, or there is no such caller. -/
def step {R σ : Type} (cs : List (Caller R σ)) (w : Shared R σ) (t : Nat) :
    Option (Shared R σ) :=
  match cs[t]?, w.pcs[t]? with
  | some caller, some pc =>
    match pc with
    | Pc.start =>
      let m : GoMap String Nat := match w.m with
        | none => []
        | some m => m
      match m.get? caller.key with
      | some c => some { w with m := some m, pcs := w.pcs.set t (Pc.waiting c) }
      | none =>
        let c := w.heap.length
        some { w with
          m := some (m.set caller.key c)
          heap := w.heap ++ [{ done := false, val := none, err := none }]
          pcs := w.pcs.set t (Pc.running c) }
    | Pc.running c =>
      match caller.fn w.st with
      | none => some { w with pcs := w.pcs.set t (Pc.crashed c) }
      | some ((val, err), st1) =>
        match w.heap[c]? with
        | none => none
        | some rec =>
          some { w with
            heap := w.heap.set c { rec with val := val, err := err }
            st := st1
            runs := w.runs ++ [(c, (val, err))]
            pcs := w.pcs.set t (Pc.computed c) }
    | Pc.computed c =>
      match w.heap[c]? with
      | none => none
      | some rec =>
        some { w with
          heap := w.heap.set c { rec with done := true }
          pcs := w.pcs.set t (Pc.ran c) }
    | Pc.ran c =>
      match w.heap[c]? with
      | none => none
      | some rec =>
        some { w with
          m := match w.m with
            | none => none
            | some m => some (m.delete caller.key)
          pcs := w.pcs.set t (Pc.returned c rec.val rec.err) }
    | Pc.waiting c =>
      match w.heap[c]? with
      | none => none
      | some rec =>
        if rec.done then some { w with pcs := w.pcs.set t (Pc.returned c rec.val rec.err) }
        else none
    | Pc.returned _ _ _ => none
    | Pc.crashed _ => none
  | _, _ => none

/-- The record a caller holds, `none` before its first step. -/
def Pc.record? {R : Type} : Pc R → Option Nat
  | Pc.start => none
  | Pc.running c => some c
  | Pc.computed c => some c
  | Pc.ran c => some c
  | Pc.waiting c => some c
  | Pc.returned c _ _ => some c
  | Pc.crashed c => some c

/-- The record the map of the group holds for `key`, `none` when it holds none or is nil. -/
def Group.record? {R : Type} (g : Group R) (key : String) : Option (call R) :=
  match g.m with
  | none => none
  | some m => m.get? key

end singleflight

namespace rainCache

/-- The states of a group between two calls of one caller: the cache is in a state its
methods produce and no call is in flight in the loader. -/
structure Group.Sound (g : Group) : Prop where
  valid : g.mainCache.Valid
  idle : ∀ k, g.loader.inflight k = false

end rainCache

/-! ## consistenthash/consistenthash.go -/

namespace consistenthash

/-- The type `Hash`, a function from bytes to `uint32`: the value of the function is read
modulo `2^32` where it is called (`Map.hashInt`). -/
abbrev Hash := List UInt8 → Nat

/-- The conversion `[]byte(s)`: the UTF-8 bytes of the string. -/
def bytesOf (s : String) : List UInt8 :=
  s.data.flatMap String.utf8EncodeChar

/-- One bit of the CRC-32 division by the IEEE polynomial, reflected form. -/
def crcBit (c : Nat) : Nat :=
  if c % 2 = 1 then (c / 2) ^^^ 0xEDB88320 else c / 2

/-- One byte of the CRC-32 computation. -/
def crcByte (crc : Nat) (b : UInt8) : Nat :=
  crcBit (crcBit (crcBit (crcBit (crcBit (crcBit (crcBit (crcBit (crc ^^^ b.toNat))))))))

/-- The library function `crc32.ChecksumIEEE`, the default hash of `New`. -/
def ChecksumIEEE (data : List UInt8) : Nat :=
  (data.foldl crcByte 0xFFFFFFFF) ^^^ 0xFFFFFFFF

/-- The struct `Map`: `keys` is the slice of ring points, `hashMap` maps a ring point to the
peer it belongs to. -/
structure Map where
  hash : Hash
  replicas : Int
  keys : List Int
  hashMap : GoMap Int String

/-- The function `New`; a nil `fn` is `none`. -/
def New (replicas : Int) (fn : Option Hash) : Map :=
  { hash := match fn with
      | some f => f
      | none => ChecksumIEEE
    replicas := replicas
    keys := []
    hashMap := [] }

/-- The expression `int(m.hash(data))`: a `uint32` converted to `int` on a 64-bit platform,
where the conversion keeps the value. -/
def Map.hashInt (m : Map) (data : List UInt8) : Int :=
  ((m.hash data % 4294967296 : Nat) : Int)

/-- The library function `strconv.Itoa` on the replica indices, which are not negative. -/
def Itoa (i : Nat) : String := toString i

/-- The library function `sort.Ints`: the slice in increasing order. -/
def sortInts (l : List Int) : List Int :=
  l.insertionSort (fun a b => a ≤ b)

/-- The inner loop of `Add` for one key: `for i := 0; i < m.replicas; i++`, no iteration
when `replicas` is not positive. -/
def Map.addReplicas (m : Map) (key : String) : Map :=
  (List.range m.replicas.toNat).foldl (fun m1 i =>
    let hash := m1.hashInt (bytesOf (Itoa i ++ key))
    { m1 with keys := m1.keys ++ [hash], hashMap := m1.hashMap.set hash key }) m

/-- The method `Add(keys ...string)`. -/
def Map.Add (m : Map) (keys : List String) : Map :=
  let m1 := keys.foldl (fun m2 key => m2.addReplicas key) m
  { m1 with keys := sortInts m1.keys }

/-- The loop of the library function `sort.Search`, `i` and `j` being its two variables:
`for i < j { h := int(uint(i+j) >> 1); if !f(h) { i = h + 1 } else { j = h } }`. Every
iteration makes `j - i` smaller, so a fuel of `j - i` is never used up. -/
def searchLoop (f : Nat → Bool) : Nat → Nat → Nat → Nat
  | 0, i, _ => i
  | fuel + 1, i, j =>
    if i < j then
      let h := (i + j) / 2
      if !f h then searchLoop f fuel (h + 1) j else searchLoop f fuel i h
    else i

/-- The library function `sort.Search(n, f)`. -/
def Search (n : Nat) (f : Nat → Bool) : Nat :=
  searchLoop f n 0 n

/-- The method `Get`. `none` is the panic of an index out of range in
`m.keys[idx%len(m.keys)]`; a ring point with no record in `hashMap` gives the zero string.
The closure given to `sort.Search` reads `m.keys[i]`, and `sort.Search` calls it with
`0 <= i < len(m.keys)` only. -/
def Map.Get (m : Map) (key : String) : Option String :=
  if m.keys.length = 0 then some ""
  else
    let hash := m.hashInt (bytesOf key)
    let idx := Search m.keys.length (fun i => decide (m.keys.getD i 0 ≥ hash))
    match m.keys[idx % m.keys.length]? with
    | none => none
    | some p =>
      match m.hashMap.get? p with
      | some id => some id
      | none => some ""

/-- The ring after a sequence of `Add` calls, each with its list of ids. -/
def Map.addAll (m : Map) (calls : List (List String)) : Map :=
  calls.foldl Map.Add m

/-- The ring points that `Add(ids...)` inserts, in the order of insertion, each with the id
it is inserted for: for each id, the replica indices `0 .. replicas - 1`. -/
def Map.pointsOf (m : Map) (ids : List String) : List (Int × String) :=
  ids.flatMap (fun id =>
    (List.range m.replicas.toNat).map (fun i => (m.hashInt (bytesOf (Itoa i ++ id)), id)))

/-- The map `hashMap` after the assignments `hashMap[hash] = id` for the points of the list,
in their order. -/
def insertPoints (hm : GoMap Int String) (pts : List (Int × String)) : GoMap Int String :=
  pts.foldl (fun hm1 p => GoMap.set hm1 p.1 p.2) hm

/-- The id of the last point of the list that has the hash `h`. -/
def lastAt (pts : List (Int × String)) (h : Int) : Option String :=
  (pts.reverse.find? (fun p => decide (p.1 = h))).map Prod.snd

/-- The ring point `p` is the one a lookup of `hash` selects in the slice `keys`: `p` is the
smallest point that is at least `hash`, or no point is at least `hash` and `p` is the
smallest point of all (wrap-around). -/
def Selects (keys : List Int) (hash p : Int) : Prop :=
  p ∈ keys ∧
    ((hash ≤ p ∧ ∀ q ∈ keys, hash ≤ q → p ≤ q) ∨
     ((∀ q ∈ keys, q < hash) ∧ ∀ q ∈ keys, p ≤ q))

end consistenthash

/-! ## Lemmas on Go maps -/

namespace GoMap

variable {K V : Type} [DecidableEq K]

theorem delete_cons (k1 : K) (v1 : V) (t : GoMap K V) (k : K) :
    delete ((k1, v1) :: t) k = if k1 = k then delete t k else (k1, v1) :: delete t k := by
  by_cases h : k1 = k <;> simp [delete, List.filter_cons, h]

theorem get?_set_self (m : GoMap K V) (k : K) (v : V) : get? (set m k v) k = some v := by
  induction m with
  | nil => simp [set, get?]
  | cons p t ih =>
    obtain ⟨k1, v1⟩ := p
    by_cases h : k1 = k
    · simp [set, get?, h]
    · simp [set, get?, h, ih]

theorem get?_set_ne (m : GoMap K V) {k k2 : K} (v : V) (h : k ≠ k2) :
    get? (set m k v) k2 = get? m k2 := by
  induction m with
  | nil => simp [set, get?, h]
  | cons p t ih =>
    obtain ⟨k1, v1⟩ := p
    by_cases h1 : k1 = k
    · subst h1
      simp [set, get?, h]
    · by_cases h2 : k1 = k2
      · subst h2
        simp [set, get?, h1]
      · simp [set, get?, h1, h2, ih]

theorem get?_delete_self (m : GoMap K V) (k : K) : get? (delete m k) k = none := by
  induction m with
  | nil => simp [delete, get?]
  | cons p t ih =>
    obtain ⟨k1, v1⟩ := p
    rw [delete_cons]
    by_cases h : k1 = k
    · simpa [h] using ih
    · simpa [h, get?] using ih

theorem get?_delete_ne (m : GoMap K V) {k k2 : K} (h : k ≠ k2) :
    get? (delete m k) k2 = get? m k2 := by
  induction m with
  | nil => simp [delete, get?]
  | cons p t ih =>
    obtain ⟨k1, v1⟩ := p
    rw [delete_cons]
    by_cases h1 : k1 = k
    · subst h1
      simpa [get?, h] using ih
    · by_cases h2 : k1 = k2
      · subst h2
        simp [get?, h1]
      · simpa [get?, h1, h2] using ih

theorem mem_keys_iff (m : GoMap K V) (k : K) : k ∈ keys m ↔ ∃ v, get? m k = some v := by
  induction m with
  | nil => simp [keys, get?]
  | cons p t ih =>
    obtain ⟨k1, v1⟩ := p
    by_cases h : k1 = k
    · simp [keys, get?, h]
    · have h2 : ¬ k = k1 := fun e => h e.symm
      simpa [keys, get?, h, h2] using ih

theorem not_mem_keys_iff (m : GoMap K V) (k : K) : k ∉ keys m ↔ get? m k = none := by
  rw [mem_keys_iff]
  cases get? m k <;> simp

theorem keys_set_of_mem (m : GoMap K V) (k : K) (v v0 : V) (h : get? m k = some v0) :
    keys (set m k v) = keys m := by
  induction m with
  | nil => simp [get?] at h
  | cons p t ih =>
    obtain ⟨k1, v1⟩ := p
    by_cases h1 : k1 = k
    · simp [set, keys, h1]
    · have ht : get? t k = some v0 := by simpa [get?, h1] using h
      have := ih ht
      simp only [keys] at this
      simp [set, keys, h1, this]

theorem keys_set_of_not_mem (m : GoMap K V) (k : K) (v : V) (h : get? m k = none) :
    keys (set m k v) = keys m ++ [k] := by
  induction m with
  | nil => simp [set, keys]
  | cons p t ih =>
    obtain ⟨k1, v1⟩ := p
    by_cases h1 : k1 = k
    · simp [get?, h1] at h
    · have ht : get? t k = none := by simpa [get?, h1] using h
      have := ih ht
      simp only [keys] at this
      simp [set, keys, h1, this]

theorem nodup_keys_delete (m : GoMap K V) (k : K) (h : (keys m).Nodup) :
    (keys (delete m k)).Nodup := by
  have hs : List.Sublist (delete m k) m := List.filter_sublist m
  exact h.sublist (hs.map Prod.fst)

theorem delete_of_not_mem (m : GoMap K V) (k : K) (h : get? m k = none) : delete m k = m := by
  induction m with
  | nil => rfl
  | cons p t ih =>
    obtain ⟨k1, v1⟩ := p
    rw [delete_cons]
    by_cases h1 : k1 = k
    · simp [get?, h1] at h
    · have ht : get? t k = none := by simpa [get?, h1] using h
      simp [h1, ih ht]

theorem length_keys_delete (m : GoMap K V) (k : K) (v : V) (hn : (keys m).Nodup)
    (h : get? m k = some v) : (keys (delete m k)).length + 1 = (keys m).length := by
  induction m with
  | nil => simp [get?] at h
  | cons p t ih =>
    obtain ⟨k1, v1⟩ := p
    have hn2 : k1 ∉ keys t ∧ (keys t).Nodup := by simpa [keys] using hn
    rw [delete_cons]
    by_cases h1 : k1 = k
    · subst h1
      have hk : get? t k1 = none := (not_mem_keys_iff t k1).1 hn2.1
      simp [delete_of_not_mem t k1 hk, keys]
    · have ht : get? t k = some v := by simpa [get?, h1] using h
      have := ih hn2.2 ht
      simp only [keys] at this
      simp [keys, h1]
      simpa using this

end GoMap

/-! ## Lemmas on histories of calls -/

namespace lfu

variable {V : Type}

theorem lastTouch_snoc (ops : List (Op V)) (op : Op V) (k : String) :
    lastTouch (ops ++ [op]) k = if op.key = k then ops.length + 1 else lastTouch ops k := by
  unfold lastTouch
  rw [List.reverse_append]
  by_cases h : op.key = k
  · simp [List.indexOf_cons, h]
  · have h2 : ¬ (op.key == k) = true := by simpa using h
    simp [List.indexOf_cons, h, h2]

theorem lastTouch_le (ops : List (Op V)) (k : String) : lastTouch ops k ≤ ops.length := by
  unfold lastTouch
  omega

theorem lastAdded_snoc_get (ops : List (Op V)) (k1 k : String) :
    lastAdded (ops ++ [Op.get k1]) k = lastAdded ops k := by
  unfold lastAdded
  rw [List.reverse_append]
  simp [List.findSome?_cons]

theorem lastAdded_snoc_add (ops : List (Op V)) (k1 k : String) (v : V) :
    lastAdded (ops ++ [Op.add k1 v]) k = if k1 = k then some v else lastAdded ops k := by
  unfold lastAdded
  rw [List.reverse_append]
  by_cases h : k1 = k <;> simp [List.findSome?_cons, h]

theorem run_append (c : Cache V) (xs ys : List (Op V)) :
    c.run (xs ++ ys) = (c.run xs).bind (fun c1 => c1.run ys) := by
  induction xs generalizing c with
  | nil => simp [Cache.run]
  | cons x xs ih =>
    simp only [List.cons_append, Cache.run]
    cases h : c.step x with
    | none => simp
    | some c1 => simpa using ih c1

/-! ## The effect of the helper methods on the buckets -/

theorem bucket_eq_of_get? (c : Cache V) (f : Int) (l : List (Object V))
    (h : c.freqMap.get? f = some l) : c.bucket f = l := by
  simp [Cache.bucket, h]

theorem get?_of_bucket_ne_nil (c : Cache V) (f : Int) (h : c.bucket f ≠ []) :
    c.freqMap.get? f = some (c.bucket f) := by
  unfold Cache.bucket at h ⊢
  cases hg : c.freqMap.get? f with
  | none => simp [hg] at h
  | some l => simp

theorem bucket_insertMap (c : Cache V) (ob : Object V) (g : Int) :
    (c.insertMap ob).bucket g = if g = ob.freq then ob :: c.bucket g else c.bucket g := by
  by_cases h : g = ob.freq
  · subst h
    simp only [Cache.bucket, Cache.insertMap, GoMap.get?_set_self, if_true]
  · have h2 : ob.freq ≠ g := fun e => h e.symm
    simp only [Cache.bucket, Cache.insertMap, GoMap.get?_set_ne _ _ h2, if_neg h]

theorem increaseFreq_spec (c : Cache V) (e : Object V) (h : c.bucket e.freq ≠ []) :
    ∃ c1, c.increaseFreq e = some c1 ∧ c1.len = c.len ∧ c1.cap = c.cap ∧
      c1.objectMap = c.objectMap.set e.key { e with freq := e.freq + 1 } ∧
      (∀ g, c1.bucket g =
        if g = e.freq + 1 then { e with freq := e.freq + 1 } :: c.bucket g
        else if g = e.freq then listRemove (c.bucket g) e else c.bucket g) ∧
      c1.minFreq =
        if c.minFreq = e.freq ∧ (listRemove (c.bucket e.freq) e).length = 0 then c.minFreq + 1
        else c.minFreq := by
  obtain ⟨l, hg, hb⟩ : ∃ l, c.freqMap.get? e.freq = some l ∧ c.bucket e.freq = l :=
    ⟨_, get?_of_bucket_ne_nil c e.freq h, rfl⟩
  simp only [Cache.increaseFreq, hg]
  refine ⟨_, rfl, ?_, ?_, ?_, ?_, ?_⟩
  · split_ifs <;> rfl
  · split_ifs <;> rfl
  · split_ifs <;> rfl
  · intro g
    rw [bucket_insertMap]
    by_cases h1 : g = e.freq + 1
    · subst h1
      simp only [if_true]
      congr 1
      have h3 : e.freq ≠ e.freq + 1 := by omega
      split_ifs <;> simp only [Cache.bucket, GoMap.get?_set_ne _ _ h3]
    · simp only [if_neg h1]
      by_cases h2 : g = e.freq
      · subst h2
        simp only [if_true, hb]
        split_ifs <;> simp only [Cache.bucket, GoMap.get?_set_self]
      · have h3 : e.freq ≠ g := fun x => h2 x.symm
        simp only [if_neg h2]
        split_ifs <;> simp only [Cache.bucket, GoMap.get?_set_ne _ _ h3]
  · simp only [hb]
    split_ifs <;> rfl

theorem eliminate_spec (c : Cache V) (h : c.bucket c.minFreq ≠ []) :
    ∃ c1 ev, c.eliminate = some c1 ∧ (c.bucket c.minFreq).getLast? = some ev ∧
      c1.len = c.len ∧ c1.cap = c.cap ∧ c1.minFreq = c.minFreq ∧
      c1.objectMap = c.objectMap.delete ev.key ∧
      (∀ g, c1.bucket g = if g = c.minFreq then (c.bucket g).dropLast else c.bucket g) := by
  obtain ⟨l, hg, hb⟩ : ∃ l, c.freqMap.get? c.minFreq = some l ∧ c.bucket c.minFreq = l :=
    ⟨_, get?_of_bucket_ne_nil c c.minFreq h, rfl⟩
  rw [hb] at h
  rw [hb]
  obtain ⟨ev, hev⟩ : ∃ ev, l.getLast? = some ev := by
    cases hl : l.getLast? with
    | none => exact absurd (List.getLast?_eq_none_iff.1 hl) h
    | some ev => exact ⟨ev, rfl⟩
  simp only [Cache.eliminate, hg, hev]
  refine ⟨_, ev, rfl, rfl, rfl, rfl, rfl, rfl, ?_⟩
  intro g
  by_cases h1 : g = c.minFreq
  · subst h1
    simp only [Cache.bucket, GoMap.get?_set_self, if_true, hg]
  · have h3 : c.minFreq ≠ g := fun x => h1 x.symm
    simp only [Cache.bucket, GoMap.get?_set_ne _ _ h3, if_neg h1]

end lfu

/-! ## The representation invariant is kept by every call -/

namespace lfu

variable {V : Type}

theorem listRemove_sublist (l : List (Object V)) (e : Object V) :
    List.Sublist (listRemove l e) l :=
  List.eraseP_sublist l

theorem mem_listRemove_of_key_ne (l : List (Object V)) (e o : Object V) (ho : o ∈ l)
    (hk : o.key ≠ e.key) : o ∈ listRemove l e := by
  unfold listRemove
  exact (List.mem_eraseP_of_neg (by simpa using hk)).2 ho

theorem key_ne_of_mem_listRemove (l : List (Object V)) (e o : Object V)
    (hd : l.Pairwise (fun a b => a.key ≠ b.key)) (ho : o ∈ listRemove l e) :
    o.key ≠ e.key := by
  induction l with
  | nil => simp [listRemove] at ho
  | cons a t ih =>
    rw [List.pairwise_cons] at hd
    by_cases ha : a.key = e.key
    · have : listRemove (a :: t) e = t := by simp [listRemove, List.eraseP_cons, ha]
      rw [this] at ho
      have := hd.1 o ho
      rw [ha] at this
      exact fun h => this h.symm
    · have : listRemove (a :: t) e = a :: listRemove t e := by
        simp [listRemove, List.eraseP_cons, ha]
      rw [this, List.mem_cons] at ho
      rcases ho with rfl | ho
      · exact ha
      · exact ih hd.2 ho

theorem keys_ne_of_order (ops : List (Op V)) (l : List (Object V))
    (h : l.Pairwise (fun a b => lastTouch ops b.key < lastTouch ops a.key)) :
    l.Pairwise (fun a b => a.key ≠ b.key) := by
  refine h.imp ?_
  intro a b hab heq
  rw [heq] at hab
  exact lt_irrefl _ hab

theorem order_snoc (ops : List (Op V)) (op : Op V) (l : List (Object V))
    (hk : ∀ o ∈ l, o.key ≠ op.key)
    (h : l.Pairwise (fun a b => lastTouch ops b.key < lastTouch ops a.key)) :
    l.Pairwise (fun a b => lastTouch (ops ++ [op]) b.key < lastTouch (ops ++ [op]) a.key) := by
  refine h.imp_of_mem ?_
  intro a b ha hb hab
  have h1 : ¬ op.key = a.key := fun e => hk a ha e.symm
  have h2 : ¬ op.key = b.key := fun e => hk b hb e.symm
  simpa [lastTouch_snoc, h1, h2] using hab

theorem inv_increaseFreq (ops : List (Op V)) (c : Cache V) (op : Op V) (k : String)
    (ob : Object V) (v1 : V) (hinv : Inv ops c) (hget : c.objectMap.get? k = some ob)
    (hop : op.key = k) (hv1 : lastAdded (ops ++ [op]) k = some v1)
    (hvo : ∀ x, x ≠ k → lastAdded (ops ++ [op]) x = lastAdded ops x)
    (c1 : Cache V) (hc1 : c.increaseFreq { ob with value := v1 } = some c1) :
    Inv (ops ++ [op]) c1 := by
  obtain ⟨hkey, hfreq, hmem⟩ := hinv.obj k ob hget
  subst hkey
  have hne : c.bucket ob.freq ≠ [] := List.ne_nil_of_mem hmem
  obtain ⟨c2, h2, hlen, hcap, hom, hb, hmin⟩ :=
    increaseFreq_spec c { ob with value := v1 } hne
  rw [hc1] at h2
  cases h2
  dsimp only at hom hb hmin
  -- an element of key `ob.key` sits in the bucket of `ob.freq` only
  have F1 : ∀ g o, o ∈ c.bucket g → o.key = ob.key → g = ob.freq := by
    intro g o ho hk
    obtain ⟨hf, hg⟩ := hinv.bkt g o ho
    rw [hk, hget] at hg
    cases hg
    exact hf.symm
  have F3 : ∀ o ∈ listRemove (c.bucket ob.freq) { ob with value := v1 }, o.key ≠ ob.key :=
    fun o ho => key_ne_of_mem_listRemove _ _ o (keys_ne_of_order ops _ (hinv.order _)) ho
  have hlenpos : 0 < c.len := by
    have : ob.key ∈ GoMap.keys c.objectMap := (GoMap.mem_keys_iff _ _).2 ⟨ob, hget⟩
    have := List.length_pos_of_mem this
    rw [hinv.len_eq]
    exact_mod_cast this
  have hkeys : GoMap.keys c1.objectMap = GoMap.keys c.objectMap := by
    rw [hom]
    exact GoMap.keys_set_of_mem _ _ _ ob hget
  refine { nodup := ?_, len_eq := ?_, obj := ?_, bkt := ?_, order := ?_, value := ?_, min := ?_ }
  · rw [hkeys]
    exact hinv.nodup
  · rw [hkeys, hlen]
    exact hinv.len_eq
  · intro x o hx
    rw [hom] at hx
    by_cases hxk : ob.key = x
    · subst hxk
      rw [GoMap.get?_set_self] at hx
      cases hx
      refine ⟨rfl, by dsimp only; omega, ?_⟩
      rw [hb]
      simp
    · rw [GoMap.get?_set_ne _ _ hxk] at hx
      obtain ⟨h1, h2, h3⟩ := hinv.obj x o hx
      refine ⟨h1, h2, ?_⟩
      rw [hb]
      by_cases hf1 : o.freq = ob.freq + 1
      · rw [if_pos hf1]
        exact List.mem_cons_of_mem _ h3
      · rw [if_neg hf1]
        by_cases hf2 : o.freq = ob.freq
        · rw [if_pos hf2]
          refine mem_listRemove_of_key_ne _ _ o h3 ?_
          rw [h1]
          exact fun e => hxk e.symm
        · rw [if_neg hf2]
          exact h3
  · intro g o ho
    rw [hb] at ho
    rw [hom]
    by_cases hg1 : g = ob.freq + 1
    · rw [if_pos hg1, List.mem_cons] at ho
      rcases ho with rfl | ho
      · exact ⟨hg1.symm, GoMap.get?_set_self _ _ _⟩
      · obtain ⟨h1, h2⟩ := hinv.bkt g o ho
        have hk : ob.key ≠ o.key := by
          intro e
          have := F1 g o ho e.symm
          omega
        exact ⟨h1, by rw [GoMap.get?_set_ne _ _ hk]; exact h2⟩
    · rw [if_neg hg1] at ho
      by_cases hg2 : g = ob.freq
      · rw [if_pos hg2] at ho
        have ho2 : o ∈ c.bucket g := (listRemove_sublist _ _).subset ho
        obtain ⟨h1, h2⟩ := hinv.bkt g o ho2
        have hk : ob.key ≠ o.key := by
          intro e
          rw [hg2] at ho
          exact F3 o ho e.symm
        exact ⟨h1, by rw [GoMap.get?_set_ne _ _ hk]; exact h2⟩
      · rw [if_neg hg2] at ho
        obtain ⟨h1, h2⟩ := hinv.bkt g o ho
        have hk : ob.key ≠ o.key := fun e => hg2 (F1 g o ho e.symm)
        exact ⟨h1, by rw [GoMap.get?_set_ne _ _ hk]; exact h2⟩
  · intro g
    rw [hb]
    by_cases hg1 : g = ob.freq + 1
    · rw [if_pos hg1, List.pairwise_cons]
      have hk : ∀ o ∈ c.bucket g, o.key ≠ op.key := by
        intro o ho e
        have := F1 g o ho (e.trans hop)
        omega
      refine ⟨?_, order_snoc ops op _ hk (hinv.order g)⟩
      intro o ho
      have h1 : ¬ op.key = o.key := fun e => hk o ho e.symm
      have := lastTouch_le ops o.key
      rw [lastTouch_snoc, lastTouch_snoc, if_neg h1, if_pos hop]
      omega
    · rw [if_neg hg1]
      by_cases hg2 : g = ob.freq
      · rw [if_pos hg2]
        refine order_snoc ops op _ ?_ ((hinv.order g).sublist (listRemove_sublist _ _))
        intro o ho
        rw [hop]
        rw [hg2] at ho
        exact F3 o ho
      · rw [if_neg hg2]
        refine order_snoc ops op _ ?_ (hinv.order g)
        intro o ho e
        exact hg2 (F1 g o ho (e.trans hop))
  · intro x o hx
    rw [hom] at hx
    by_cases hxk : ob.key = x
    · subst hxk
      rw [GoMap.get?_set_self] at hx
      cases hx
      exact hv1
    · rw [GoMap.get?_set_ne _ _ hxk] at hx
      rw [hvo x (fun e => hxk e.symm)]
      exact hinv.value x o hx
  · intro _
    obtain ⟨hm1, hm2⟩ := hinv.min hlenpos
    rw [hmin]
    by_cases hP : c.minFreq = ob.freq ∧
        (listRemove (c.bucket ob.freq) { ob with value := v1 }).length = 0
    · rw [if_pos hP]
      refine ⟨?_, ?_⟩
      · rw [hb, hP.1]
        simp
      · intro x o hx
        rw [hom] at hx
        by_cases hxk : ob.key = x
        · subst hxk
          rw [GoMap.get?_set_self] at hx
          cases hx
          dsimp only
          omega
        · rw [GoMap.get?_set_ne _ _ hxk] at hx
          obtain ⟨h1, _, h3⟩ := hinv.obj x o hx
          have h4 := hm2 x o hx
          have h5 : o.freq ≠ ob.freq := by
            intro e
            rw [e] at h3
            have := mem_listRemove_of_key_ne _ { ob with value := v1 } o h3
              (by rw [h1]; exact fun e => hxk e.symm)
            rw [List.length_eq_zero.1 hP.2] at this
            simp at this
          omega
    · rw [if_neg hP]
      refine ⟨?_, ?_⟩
      · rw [hb]
        by_cases hg1 : c.minFreq = ob.freq + 1
        · rw [if_pos hg1]
          simp
        · rw [if_neg hg1]
          by_cases hg2 : c.minFreq = ob.freq
          · rw [if_pos hg2]
            intro e
            apply hP
            refine ⟨hg2, ?_⟩
            rw [hg2] at e
            rw [e]
            rfl
          · rw [if_neg hg2]
            exact hm1
      · intro x o hx
        rw [hom] at hx
        by_cases hxk : ob.key = x
        · subst hxk
          rw [GoMap.get?_set_self] at hx
          cases hx
          have := hm2 _ ob hget
          dsimp only
          omega
        · rw [GoMap.get?_set_ne _ _ hxk] at hx
          exact hm2 x o hx

theorem core_eliminate (ops : List (Op V)) (c : Cache V) (hinv : InvCore ops c)
    (hne : c.bucket c.minFreq ≠ []) :
    ∃ c1 ev, c.eliminate = some c1 ∧ (c.bucket c.minFreq).getLast? = some ev ∧
      c.objectMap.get? ev.key = some ev ∧ ev.freq = c.minFreq ∧
      c1.objectMap = c.objectMap.delete ev.key ∧ c1.cap = c.cap ∧ c1.len = c.len ∧
      InvCore ops { c1 with len := c1.len - 1 } := by
  obtain ⟨c1, ev, h1, hev, hlen, hcap, _, hom, hb⟩ := eliminate_spec c hne
  have hl : (c.bucket c.minFreq).dropLast ++ [ev] = c.bucket c.minFreq :=
    List.dropLast_append_getLast? ev hev
  have hevmem : ev ∈ c.bucket c.minFreq := by
    rw [← hl]
    simp
  obtain ⟨hevf, hevget⟩ := hinv.bkt _ ev hevmem
  have F1 : ∀ g o, o ∈ c.bucket g → o.key = ev.key → o = ev ∧ g = c.minFreq := by
    intro g o ho hk
    obtain ⟨hf, hg⟩ := hinv.bkt g o ho
    rw [hk, hevget] at hg
    cases hg
    exact ⟨rfl, by rw [← hf, hevf]⟩
  have F3 : ∀ o ∈ (c.bucket c.minFreq).dropLast, o.key ≠ ev.key := by
    have hd := keys_ne_of_order ops _ (hinv.order c.minFreq)
    rw [← hl, List.pairwise_append] at hd
    intro o ho
    exact hd.2.2 o ho ev (by simp)
  refine ⟨c1, ev, h1, hev, hevget, hevf, hom, hcap, hlen, ?_⟩
  refine { nodup := ?_, len_eq := ?_, obj := ?_, bkt := ?_, order := ?_, value := ?_ }
  · show (GoMap.keys c1.objectMap).Nodup
    rw [hom]
    exact GoMap.nodup_keys_delete _ _ hinv.nodup
  · show c1.len - 1 = ((GoMap.keys c1.objectMap).length : Int)
    have := GoMap.length_keys_delete c.objectMap ev.key ev hinv.nodup hevget
    have h2 := hinv.len_eq
    rw [hom, hlen]
    omega
  · intro x o hx
    show o.key = x ∧ 1 ≤ o.freq ∧ o ∈ c1.bucket o.freq
    change c1.objectMap.get? x = some o at hx
    rw [hom] at hx
    have hxk : ev.key ≠ x := by
      intro e
      rw [← e, GoMap.get?_delete_self] at hx
      cases hx
    rw [GoMap.get?_delete_ne _ hxk] at hx
    obtain ⟨h3, h4, h5⟩ := hinv.obj x o hx
    refine ⟨h3, h4, ?_⟩
    rw [hb]
    by_cases hf : o.freq = c.minFreq
    · rw [if_pos hf]
      rw [hf, ← hl, List.mem_append] at h5
      rcases h5 with h5 | h5
      · rw [hf]
        exact h5
      · simp only [List.mem_singleton] at h5
        rw [h5] at h3
        exact absurd h3 hxk
    · rw [if_neg hf]
      exact h5
  · intro g o ho
    show o.freq = g ∧ c1.objectMap.get? o.key = some o
    change o ∈ c1.bucket g at ho
    rw [hb] at ho
    rw [hom]
    by_cases hg : g = c.minFreq
    · rw [if_pos hg, hg] at ho
      have ho2 : o ∈ c.bucket c.minFreq := (List.dropLast_sublist _).subset ho
      obtain ⟨h3, h4⟩ := hinv.bkt _ o ho2
      have hk : ev.key ≠ o.key := fun e => F3 o ho e.symm
      rw [hg]
      exact ⟨h3, by rw [GoMap.get?_delete_ne _ hk]; exact h4⟩
    · rw [if_neg hg] at ho
      obtain ⟨h3, h4⟩ := hinv.bkt g o ho
      have hk : ev.key ≠ o.key := fun e => hg (F1 g o ho e.symm).2
      exact ⟨h3, by rw [GoMap.get?_delete_ne _ hk]; exact h4⟩
  · intro g
    show (c1.bucket g).Pairwise _
    rw [hb]
    by_cases hg : g = c.minFreq
    · rw [if_pos hg]
      exact (hinv.order g).sublist (List.dropLast_sublist _)
    · rw [if_neg hg]
      exact hinv.order g
  · intro x o hx
    change c1.objectMap.get? x = some o at hx
    rw [hom] at hx
    have hxk : ev.key ≠ x := by
      intro e
      rw [← e, GoMap.get?_delete_self] at hx
      cases hx
    rw [GoMap.get?_delete_ne _ hxk] at hx
    exact hinv.value x o hx

theorem inv_insert (ops : List (Op V)) (c : Cache V) (k : String) (v : V)
    (hinv : InvCore ops c) (hget : c.objectMap.get? k = none) :
    Inv (ops ++ [Op.add k v])
      { c.insertMap (InitObject k v 1) with
        minFreq := 1, len := (c.insertMap (InitObject k v 1)).len + 1 } := by
  have hb : ∀ g, (c.insertMap (InitObject k v 1)).bucket g =
      if g = 1 then InitObject k v 1 :: c.bucket g else c.bucket g :=
    fun g => bucket_insertMap c (InitObject k v 1) g
  have hom : (c.insertMap (InitObject k v 1)).objectMap =
      c.objectMap.set k (InitObject k v 1) := rfl
  have F1 : ∀ g o, o ∈ c.bucket g → k ≠ o.key := by
    intro g o ho e
    have := (hinv.bkt g o ho).2
    rw [← e, hget] at this
    cases this
  have hkeys := GoMap.keys_set_of_not_mem c.objectMap k (InitObject k v 1) hget
  have hnotin : k ∉ GoMap.keys c.objectMap := (GoMap.not_mem_keys_iff _ _).2 hget
  refine { nodup := ?_, len_eq := ?_, obj := ?_, bkt := ?_, order := ?_, value := ?_, min := ?_ }
  · show (GoMap.keys (c.insertMap (InitObject k v 1)).objectMap).Nodup
    rw [hom, hkeys, List.nodup_append]
    refine ⟨hinv.nodup, List.nodup_singleton k, ?_⟩
    intro a ha hb
    simp only [List.mem_singleton] at hb
    rw [hb] at ha
    exact hnotin ha
  · show c.len + 1 = ((GoMap.keys (c.insertMap (InitObject k v 1)).objectMap).length : Int)
    rw [hom, hkeys, hinv.len_eq]
    simp
  · intro x o hx
    show o.key = x ∧ 1 ≤ o.freq ∧ o ∈ (c.insertMap (InitObject k v 1)).bucket o.freq
    change (c.insertMap (InitObject k v 1)).objectMap.get? x = some o at hx
    rw [hom] at hx
    rw [hb]
    by_cases hxk : k = x
    · subst hxk
      rw [GoMap.get?_set_self] at hx
      cases hx
      simp [InitObject]
    · rw [GoMap.get?_set_ne _ _ hxk] at hx
      obtain ⟨h3, h4, h5⟩ := hinv.obj x o hx
      refine ⟨h3, h4, ?_⟩
      split_ifs
      · exact List.mem_cons_of_mem _ h5
      · exact h5
  · intro g o ho
    show o.freq = g ∧ (c.insertMap (InitObject k v 1)).objectMap.get? o.key = some o
    change o ∈ (c.insertMap (InitObject k v 1)).bucket g at ho
    rw [hb] at ho
    rw [hom]
    have hold : o ∈ c.bucket g →
        o.freq = g ∧ (c.objectMap.set k (InitObject k v 1)).get? o.key = some o := by
      intro ho
      obtain ⟨h3, h4⟩ := hinv.bkt g o ho
      exact ⟨h3, by rw [GoMap.get?_set_ne _ _ (F1 g o ho)]; exact h4⟩
    by_cases hg : g = 1
    · rw [if_pos hg, List.mem_cons] at ho
      rcases ho with rfl | ho
      · exact ⟨hg.symm, GoMap.get?_set_self _ _ _⟩
      · exact hold ho
    · rw [if_neg hg] at ho
      exact hold ho
  · intro g
    show ((c.insertMap (InitObject k v 1)).bucket g).Pairwise _
    rw [hb]
    have hk : ∀ o ∈ c.bucket g, o.key ≠ (Op.add k v).key :=
      fun o ho e => F1 g o ho e.symm
    have hold := order_snoc ops (Op.add k v) _ hk (hinv.order g)
    by_cases hg : g = 1
    · rw [if_pos hg, List.pairwise_cons]
      refine ⟨?_, hold⟩
      intro o ho
      have h1 : ¬ (Op.add k v).key = o.key := fun e => hk o ho e.symm
      have h2 : (Op.add k v).key = (InitObject k v 1).key := rfl
      have := lastTouch_le ops o.key
      rw [lastTouch_snoc, lastTouch_snoc, if_neg h1, if_pos h2]
      omega
    · rw [if_neg hg]
      exact hold
  · intro x o hx
    change (c.insertMap (InitObject k v 1)).objectMap.get? x = some o at hx
    rw [hom] at hx
    rw [lastAdded_snoc_add]
    by_cases hxk : k = x
    · subst hxk
      rw [GoMap.get?_set_self] at hx
      cases hx
      simp [InitObject]
    · rw [GoMap.get?_set_ne _ _ hxk] at hx
      rw [if_neg hxk]
      exact hinv.value x o hx
  · intro _
    show (c.insertMap (InitObject k v 1)).bucket 1 ≠ [] ∧
      ∀ x o, (c.insertMap (InitObject k v 1)).objectMap.get? x = some o → 1 ≤ o.freq
    refine ⟨by rw [hb]; simp, ?_⟩
    intro x o hx
    rw [hom] at hx
    by_cases hxk : k = x
    · subst hxk
      rw [GoMap.get?_set_self] at hx
      cases hx
      simp [InitObject]
    · rw [GoMap.get?_set_ne _ _ hxk] at hx
      exact (hinv.obj x o hx).2.1

theorem inv_miss (ops : List (Op V)) (c : Cache V) (k : String) (hinv : Inv ops c)
    (hget : c.objectMap.get? k = none) : Inv (ops ++ [Op.get k]) c := by
  refine { nodup := hinv.nodup, len_eq := hinv.len_eq, obj := hinv.obj, bkt := hinv.bkt,
           order := ?_, value := ?_, min := hinv.min }
  · intro g
    refine order_snoc ops (Op.get k) _ ?_ (hinv.order g)
    intro o ho e
    have := (hinv.bkt g o ho).2
    rw [e] at this
    change c.objectMap.get? k = some o at this
    rw [hget] at this
    cases this
  · intro x o hx
    rw [lastAdded_snoc_get]
    exact hinv.value x o hx

theorem inv_New (cap : Int) : Inv ([] : List (Op V)) (New cap) := by
  refine { nodup := ?_, len_eq := ?_, obj := ?_, bkt := ?_, order := ?_, value := ?_, min := ?_ }
  · exact List.nodup_nil
  · rfl
  · intro k ob h
    cases h
  · intro f o ho
    cases ho
  · intro f
    exact List.Pairwise.nil
  · intro k ob h
    cases h
  · intro h
    exact absurd h (lt_irrefl _)

end lfu

/-! ## The calls `Get` and `Add` on a state that satisfies the invariant -/

namespace lfu

variable {V : Type}

theorem len_pos_of_get? (ops : List (Op V)) (c : Cache V) (k : String) (ob : Object V)
    (hinv : InvCore ops c) (hget : c.objectMap.get? k = some ob) : 0 < c.len := by
  have : k ∈ GoMap.keys c.objectMap := (GoMap.mem_keys_iff _ _).2 ⟨ob, hget⟩
  have := List.length_pos_of_mem this
  rw [hinv.len_eq]
  exact_mod_cast this

theorem len_nonneg (ops : List (Op V)) (c : Cache V) (hinv : InvCore ops c) : 0 ≤ c.len := by
  rw [hinv.len_eq]
  exact Int.natCast_nonneg _

theorem Get_hit (ops : List (Op V)) (c : Cache V) (k : String) (ob : Object V)
    (hinv : Inv ops c) (hget : c.objectMap.get? k = some ob) :
    ∃ c1, c.Get k = some ((some ob.value, true), c1) ∧ c.increaseFreq ob = some c1 ∧
      Inv (ops ++ [Op.get k]) c1 := by
  obtain ⟨_, _, hmem⟩ := hinv.obj k ob hget
  obtain ⟨c1, h1, _⟩ := increaseFreq_spec c ob (List.ne_nil_of_mem hmem)
  refine ⟨c1, by simp only [Cache.Get, hget, h1], h1, ?_⟩
  refine inv_increaseFreq ops c (Op.get k) k ob ob.value hinv hget rfl ?_ ?_ c1 h1
  · rw [lastAdded_snoc_get]
    exact hinv.value k ob hget
  · intro x _
    exact lastAdded_snoc_get ops k x

theorem Add_hit (ops : List (Op V)) (c : Cache V) (k : String) (v : V) (ob : Object V)
    (hinv : Inv ops c) (hget : c.objectMap.get? k = some ob) :
    ∃ c1, c.Add k v = some c1 ∧ c.increaseFreq { ob with value := v } = some c1 ∧
      Inv (ops ++ [Op.add k v]) c1 := by
  obtain ⟨_, _, hmem⟩ := hinv.obj k ob hget
  obtain ⟨c1, h1, _⟩ :=
    increaseFreq_spec c { ob with value := v } (List.ne_nil_of_mem hmem)
  refine ⟨c1, by simp only [Cache.Add, hget, h1], h1, ?_⟩
  refine inv_increaseFreq ops c (Op.add k v) k ob v hinv hget rfl ?_ ?_ c1 h1
  · rw [lastAdded_snoc_add, if_pos rfl]
  · intro x hx
    rw [lastAdded_snoc_add, if_neg (fun e => hx e.symm)]

theorem Add_new_room (ops : List (Op V)) (c : Cache V) (k : String) (v : V)
    (hinv : Inv ops c) (hget : c.objectMap.get? k = none) (hlen : c.len ≠ c.cap) :
    ∃ c1, c.Add k v = some c1 ∧ Inv (ops ++ [Op.add k v]) c1 ∧ c1.cap = c.cap ∧
      c1.len = c.len + 1 ∧ c1.objectMap = c.objectMap.set k (InitObject k v 1) := by
  refine ⟨{ c.insertMap (InitObject k v 1) with
      minFreq := 1, len := (c.insertMap (InitObject k v 1)).len + 1 }, ?_, ?_, rfl, rfl, rfl⟩
  · simp only [Cache.Add, hget, if_neg hlen]
  · exact inv_insert ops c k v hinv.toInvCore hget

theorem Add_new_full (ops : List (Op V)) (c : Cache V) (k : String) (v : V)
    (hinv : Inv ops c) (hget : c.objectMap.get? k = none) (hlen : c.len = c.cap)
    (hcap : c.cap ≠ 0) :
    ∃ c1 ev, c.Add k v = some c1 ∧ Inv (ops ++ [Op.add k v]) c1 ∧ c1.cap = c.cap ∧
      c1.len = c.len ∧ (c.bucket c.minFreq).getLast? = some ev ∧
      c.objectMap.get? ev.key = some ev ∧ ev.freq = c.minFreq ∧
      c1.objectMap = (c.objectMap.delete ev.key).set k (InitObject k v 1) := by
  have hpos : 0 < c.len := by
    have := len_nonneg ops c hinv.toInvCore
    omega
  obtain ⟨c2, ev, h1, hev, hevget, hevf, hom, hcap2, hlen2, hcore⟩ :=
    core_eliminate ops c hinv.toInvCore (hinv.min hpos).1
  have hget2 : c2.objectMap.get? k = none := by
    rw [hom]
    by_cases hk : ev.key = k
    · rw [← hk]
      exact GoMap.get?_delete_self _ _
    · rw [GoMap.get?_delete_ne _ hk]
      exact hget
  have hI := inv_insert ops { c2 with len := c2.len - 1 } k v hcore hget2
  refine ⟨_, ev, ?_, hI, hcap2, ?_, hev, hevget, hevf, ?_⟩
  · simp only [Cache.Add, hget, if_pos hlen, h1]
  · show c2.len - 1 + 1 = c.len
    omega
  · show c2.objectMap.set k (InitObject k v 1) = _
    rw [hom]

theorem inv_step (ops : List (Op V)) (c : Cache V) (op : Op V) (hinv : Inv ops c)
    (hcap : c.cap ≠ 0) :
    ∃ c1, c.step op = some c1 ∧ Inv (ops ++ [op]) c1 ∧ c1.cap = c.cap ∧
      (c.len ≤ c.cap → c1.len ≤ c1.cap) := by
  cases op with
  | get k =>
    cases hget : c.objectMap.get? k with
    | none =>
      refine ⟨c, by simp [Cache.step, Cache.Get, hget], inv_miss ops c k hinv hget, rfl,
        fun h => h⟩
    | some ob =>
      obtain ⟨c1, h1, h2, h3⟩ := Get_hit ops c k ob hinv hget
      obtain ⟨_, _, hmem⟩ := hinv.obj k ob hget
      obtain ⟨c2, h4, h5, h6, _⟩ := increaseFreq_spec c ob (List.ne_nil_of_mem hmem)
      rw [h2] at h4
      cases h4
      refine ⟨c1, by simp [Cache.step, h1], h3, h6, ?_⟩
      rw [h5, h6]
      exact fun h => h
  | add k v =>
    cases hget : c.objectMap.get? k with
    | some ob =>
      obtain ⟨c1, h1, h2, h3⟩ := Add_hit ops c k v ob hinv hget
      obtain ⟨_, _, hmem⟩ := hinv.obj k ob hget
      obtain ⟨c2, h4, h5, h6, _⟩ :=
        increaseFreq_spec c { ob with value := v } (List.ne_nil_of_mem hmem)
      rw [h2] at h4
      cases h4
      refine ⟨c1, h1, h3, h6, ?_⟩
      rw [h5, h6]
      exact fun h => h
    | none =>
      by_cases hlen : c.len = c.cap
      · obtain ⟨c1, ev, h1, h2, h3, h4, _⟩ := Add_new_full ops c k v hinv hget hlen hcap
        refine ⟨c1, h1, h2, h3, ?_⟩
        rw [h3, h4]
        exact fun h => h
      · obtain ⟨c1, h1, h2, h3, h4, _⟩ := Add_new_room ops c k v hinv hget hlen
        refine ⟨c1, h1, h2, h3, ?_⟩
        rw [h3, h4]
        intro h
        omega

theorem run_inv (cap : Int) (hcap : cap ≠ 0) (ops : List (Op V)) :
    ∃ c, (New cap : Cache V).run ops = some c ∧ Inv ops c ∧ c.cap = cap ∧
      (0 ≤ cap → c.len ≤ c.cap) := by
  induction ops using List.reverseRecOn with
  | nil => exact ⟨New cap, rfl, inv_New cap, rfl, fun h => h⟩
  | append_singleton ops op ih =>
    obtain ⟨c, h1, h2, h3, h4⟩ := ih
    obtain ⟨c1, h5, h6, h7, h8⟩ := inv_step ops c op h2 (by rw [h3]; exact hcap)
    refine ⟨c1, ?_, h6, by rw [h7, h3], ?_⟩
    · rw [run_append, h1]
      simp [Cache.run, h5]
    · intro h
      exact h8 (h4 h)

theorem inv_of_run (cap : Int) (hcap : cap ≠ 0) (ops : List (Op V)) (c : Cache V)
    (h : (New cap : Cache V).run ops = some c) :
    Inv ops c ∧ c.cap = cap ∧ (0 ≤ cap → c.len ≤ c.cap) := by
  obtain ⟨c1, h1, h2⟩ := run_inv cap hcap ops
  rw [h] at h1
  cases h1
  exact h2

end lfu

/-! ## The last call that names a present key is its last touch -/

namespace lfu

variable {V : Type}

theorem absent_step (ops : List (Op V)) (c c1 : Cache V) (op : Op V) (k : String)
    (hinv : Inv ops c) (hcap : c.cap ≠ 0) (hk : c.objectMap.get? k = none)
    (hop : op.key ≠ k) (hstep : c.step op = some c1) : c1.objectMap.get? k = none := by
  have hfreq : ∀ (k1 : String) (e ob : Object V), c.objectMap.get? k1 = some ob →
      e.key = ob.key → e.freq = ob.freq → k1 ≠ k → ∀ c2, c.increaseFreq e = some c2 →
      c2.objectMap.get? k = none := by
    intro k1 e ob hget hek hef hne c2 h2
    obtain ⟨hkey, _, hmem⟩ := hinv.obj k1 ob hget
    have hb : c.bucket e.freq ≠ [] := by
      rw [hef]
      exact List.ne_nil_of_mem hmem
    obtain ⟨c3, h3, _, _, hom, _⟩ := increaseFreq_spec c e hb
    rw [h2] at h3
    cases h3
    rw [hom, GoMap.get?_set_ne _ _ (by rw [hek, hkey]; exact hne)]
    exact hk
  cases op with
  | get k1 =>
    have hne : k1 ≠ k := hop
    cases hget : c.objectMap.get? k1 with
    | none =>
      have : c1 = c := by
        simp [Cache.step, Cache.Get, hget] at hstep
        exact hstep.symm
      rw [this]
      exact hk
    | some ob =>
      obtain ⟨c2, h1, h2, _⟩ := Get_hit ops c k1 ob hinv hget
      have : c1 = c2 := by
        simp [Cache.step, h1] at hstep
        exact hstep.symm
      rw [this]
      exact hfreq k1 ob ob hget rfl rfl hne c2 h2
  | add k1 v =>
    have hne : k1 ≠ k := hop
    have hstep2 : c.Add k1 v = some c1 := hstep
    cases hget : c.objectMap.get? k1 with
    | some ob =>
      obtain ⟨c2, h1, h2, _⟩ := Add_hit ops c k1 v ob hinv hget
      rw [hstep2] at h1
      cases h1
      exact hfreq k1 { ob with value := v } ob hget rfl rfl hne c1 h2
    | none =>
      by_cases hlen : c.len = c.cap
      · obtain ⟨c2, ev, h1, _, _, _, _, _, _, hom⟩ :=
          Add_new_full ops c k1 v hinv hget hlen hcap
        rw [hstep2] at h1
        cases h1
        rw [hom, GoMap.get?_set_ne _ _ hne]
        by_cases he : ev.key = k
        · rw [← he]
          exact GoMap.get?_delete_self _ _
        · rw [GoMap.get?_delete_ne _ he]
          exact hk
      · obtain ⟨c2, h1, _, _, _, hom⟩ := Add_new_room ops c k1 v hinv hget hlen
        rw [hstep2] at h1
        cases h1
        rw [hom, GoMap.get?_set_ne _ _ hne]
        exact hk

theorem absent_run (post : List (Op V)) (ops : List (Op V)) (c c1 : Cache V) (k : String)
    (hinv : Inv ops c) (hcap : c.cap ≠ 0) (hk : c.objectMap.get? k = none)
    (hpost : ∀ o ∈ post, o.key ≠ k) (hrun : c.run post = some c1) :
    c1.objectMap.get? k = none := by
  induction post generalizing ops c with
  | nil =>
    simp only [Cache.run, Option.some.injEq] at hrun
    rw [← hrun]
    exact hk
  | cons o post ih =>
    obtain ⟨c2, h1, h2, h3, _⟩ := inv_step ops c o hinv hcap
    simp only [Cache.run, h1] at hrun
    have hk2 := absent_step ops c c2 o k hinv hcap hk (hpost o (by simp)) h1
    exact ih (ops ++ [o]) c2 h2 (by rw [h3]; exact hcap) hk2
      (fun x hx => hpost x (List.mem_cons_of_mem _ hx)) hrun

theorem lastTouch_last_call (pre post : List (Op V)) (op : Op V) (k : String)
    (hop : op.key = k) (hpost : ∀ o ∈ post, o.key ≠ k) :
    lastTouch (pre ++ op :: post) k = pre.length + 1 := by
  induction post using List.reverseRecOn with
  | nil => rw [lastTouch_snoc, if_pos hop]
  | append_singleton post o ih =>
    have h1 : pre ++ op :: (post ++ [o]) = (pre ++ op :: post) ++ [o] := by simp
    rw [h1, lastTouch_snoc, if_neg (hpost o (by simp))]
    exact ih (fun x hx => hpost x (by simp [hx]))

/-- The position `lastTouch` gives for a present key is the one of its last touch. If after
the history `pre ++ op :: post` the key `k` is in the cache, `op` names `k` and no call of
`post` names `k`, then `lastTouch` is the position of `op`, and `op` has touched `k`: it is
an `Add` of `k`, or a `Get` of `k` that found `k` in the cache. -/
theorem lastTouch_is_touch (cap : Int) (hcap : cap ≠ 0) (pre post : List (Op V)) (op : Op V)
    (c : Cache V) (k : String) (ob : Object V) (hop : op.key = k)
    (hpost : ∀ o ∈ post, o.key ≠ k)
    (hrun : (New cap : Cache V).run (pre ++ op :: post) = some c)
    (hget : c.objectMap.get? k = some ob) :
    lastTouch (pre ++ op :: post) k = pre.length + 1 ∧
    ∃ c0, (New cap : Cache V).run pre = some c0 ∧
      ((∃ v, op = Op.add k v) ∨ (op = Op.get k ∧ ∃ ob0, c0.objectMap.get? k = some ob0)) := by
  refine ⟨lastTouch_last_call pre post op k hop hpost, ?_⟩
  obtain ⟨c0, h0, hinv0, hc0, _⟩ := run_inv (V := V) cap hcap pre
  refine ⟨c0, h0, ?_⟩
  cases op with
  | add k1 v =>
    left
    have : k1 = k := hop
    exact ⟨v, by rw [this]⟩
  | get k1 =>
    right
    have hk1 : k1 = k := hop
    subst hk1
    refine ⟨rfl, ?_⟩
    cases h : c0.objectMap.get? k1 with
    | some ob0 => exact ⟨ob0, rfl⟩
    | none =>
      exfalso
      have hrun2 : c0.run post = some c := by
        have := hrun
        rw [run_append, h0] at this
        simpa [Cache.run, Cache.step, Cache.Get, h] using this
      have := absent_run post pre c0 c k1 hinv0 (by rw [hc0]; exact hcap) h hpost hrun2
      rw [hget] at this
      cases this

end lfu

/-! ## The LFU cache: capacity, eviction and `Get` -/

namespace lfu

variable {V : Type}

/-- C8. Capacity bound. For a cache created by `New` with a capacity of at least one and
every history of `Add` and `Get` calls, after each call of the history (after its first `n`
calls, for every `n`) the calls have all returned, `len` is at most `cap`, the keys stored
in `objectMap` are distinct and `len` is their number. -/
theorem lfu_capacity_bound (cap : Int) (hcap : 1 ≤ cap) (ops : List (Op V)) (n : Nat) :
    ∃ c, (New cap : Cache V).run (ops.take n) = some c ∧ c.cap = cap ∧ c.len ≤ c.cap ∧
      (GoMap.keys c.objectMap).Nodup ∧
      c.len = ((GoMap.keys c.objectMap).toFinset.card : Int) ∧
      ∀ k, k ∈ (GoMap.keys c.objectMap).toFinset ↔ ∃ ob, c.objectMap.get? k = some ob := by
  obtain ⟨c, h1, h2, h3, h4⟩ := run_inv (V := V) cap (by omega) (ops.take n)
  refine ⟨c, h1, h3, h4 (by omega), h2.nodup, ?_, ?_⟩
  · rw [List.toFinset_card_of_nodup h2.nodup]
    exact h2.len_eq
  · intro k
    rw [List.mem_toFinset]
    exact GoMap.mem_keys_iff _ _

theorem lfu_capacity_bound_witness :
    (1 : Int) ≤ 2 ∧
    ∃ c, (New 2 : Cache Nat).run
        ([Op.add "A" 1, Op.add "B" 2, Op.get "A", Op.add "C" 3].take 4) = some c ∧
      c.cap = 2 ∧ c.len ≤ c.cap ∧ (GoMap.keys c.objectMap).Nodup ∧
      c.len = ((GoMap.keys c.objectMap).toFinset.card : Int) ∧
      ∀ k, k ∈ (GoMap.keys c.objectMap).toFinset ↔ ∃ ob, c.objectMap.get? k = some ob :=
  ⟨by decide, lfu_capacity_bound 2 (by decide) _ 4⟩

/-- C9. Eviction target. In a state reached from `New` with a capacity of at least one in
which `len == cap`, `Add(k, v)` of a key that is not present returns, and there is a present
key `ev.key` such that: the keys present afterwards are `k` and the keys present before
other than `ev.key`, each of these with the entry it had; `ev` has the smallest frequency of
the present keys; every other present key of that frequency was touched later than `ev.key`;
and `k` is present with value `v`. With capacity 2, `Add(A)`, `Add(B)`, `Get(A)`, `Add(C)`
leaves exactly the keys `A` and `C`. -/
theorem lfu_eviction_target (cap : Int) (hcap : 1 ≤ cap) (ops : List (Op V)) (c : Cache V)
    (hrun : (New cap : Cache V).run ops = some c) (hfull : c.len = c.cap)
    (k : String) (v : V) (hk : c.objectMap.get? k = none) :
    (∃ c1 ev, c.Add k v = some c1 ∧ c.objectMap.get? ev.key = some ev ∧
      (∀ x, (∃ o, c1.objectMap.get? x = some o) ↔
        (x = k ∨ (x ≠ ev.key ∧ ∃ o, c.objectMap.get? x = some o))) ∧
      (∀ x, x ≠ k → x ≠ ev.key → c1.objectMap.get? x = c.objectMap.get? x) ∧
      (∀ x o, c.objectMap.get? x = some o → ev.freq ≤ o.freq) ∧
      (∀ x o, c.objectMap.get? x = some o → x ≠ ev.key → o.freq = ev.freq →
        lastTouch ops ev.key < lastTouch ops x) ∧
      c1.objectMap.get? k = some (InitObject k v 1)) ∧
    (∀ a b d : V, Option.map (fun s => GoMap.keys s.objectMap)
        ((New 2 : Cache V).run [Op.add "A" a, Op.add "B" b, Op.get "A", Op.add "C" d]) =
      some ["A", "C"]) := by
  refine ⟨?_, fun a b d => rfl⟩
  obtain ⟨hinv, hc, _⟩ := inv_of_run cap (by omega) ops c hrun
  obtain ⟨c1, ev, h1, _, _, _, hev, hevget, hevf, hom⟩ :=
    Add_new_full ops c k v hinv hk hfull (by rw [hc]; omega)
  have hkev : ev.key ≠ k := by
    intro e
    rw [e, hk] at hevget
    cases hevget
  have hother : ∀ x, x ≠ k → x ≠ ev.key → c1.objectMap.get? x = c.objectMap.get? x := by
    intro x hx1 hx2
    rw [hom, GoMap.get?_set_ne _ _ (fun e => hx1 e.symm),
      GoMap.get?_delete_ne _ (fun e => hx2 e.symm)]
  have hpos : 0 < c.len := len_pos_of_get? ops c ev.key ev hinv.toInvCore hevget
  refine ⟨c1, ev, h1, hevget, ?_, hother, ?_, ?_, ?_⟩
  · intro x
    by_cases hx1 : x = k
    · subst hx1
      rw [hom, GoMap.get?_set_self]
      simp
    · by_cases hx2 : x = ev.key
      · subst hx2
        rw [hom, GoMap.get?_set_ne _ _ (fun e => hx1 e.symm), GoMap.get?_delete_self]
        simp [hx1]
      · rw [hother x hx1 hx2]
        simp [hx1, hx2]
  · intro x o hx
    rw [hevf]
    exact (hinv.min hpos).2 x o hx
  · intro x o hx hne hf
    obtain ⟨h3, _, h5⟩ := hinv.obj x o hx
    have hl : (c.bucket c.minFreq).dropLast ++ [ev] = c.bucket c.minFreq :=
      List.dropLast_append_getLast? ev hev
    have hord := hinv.order c.minFreq
    rw [← hl, List.pairwise_append] at hord
    rw [hf, hevf, ← hl, List.mem_append] at h5
    rcases h5 with h5 | h5
    · have := hord.2.2 o h5 ev (by simp)
      rw [h3] at this
      exact this
    · simp only [List.mem_singleton] at h5
      rw [h5] at h3
      exact absurd h3.symm hne
  · rw [hom, GoMap.get?_set_self]

theorem lfu_eviction_target_witness :
    ∃ c : Cache Nat,
      (New 2 : Cache Nat).run [Op.add "A" 1, Op.add "B" 2, Op.get "A"] = some c ∧
      c.len = c.cap ∧ c.objectMap.get? "C" = none ∧
      (∃ c1 ev, c.Add "C" 3 = some c1 ∧ c.objectMap.get? ev.key = some ev ∧
        (∀ x, (∃ o, c1.objectMap.get? x = some o) ↔
          (x = "C" ∨ (x ≠ ev.key ∧ ∃ o, c.objectMap.get? x = some o))) ∧
        (∀ x, x ≠ "C" → x ≠ ev.key → c1.objectMap.get? x = c.objectMap.get? x) ∧
        (∀ x o, c.objectMap.get? x = some o → ev.freq ≤ o.freq) ∧
        (∀ x o, c.objectMap.get? x = some o → x ≠ ev.key → o.freq = ev.freq →
          lastTouch [Op.add "A" 1, Op.add "B" 2, Op.get "A"] ev.key <
            lastTouch [Op.add "A" 1, Op.add "B" 2, Op.get "A"] x) ∧
        c1.objectMap.get? "C" = some (InitObject "C" 3 1)) :=
  ⟨_, rfl, by decide, by decide,
    (lfu_eviction_target 2 (by decide) [Op.add "A" 1, Op.add "B" 2, Op.get "A"] _ rfl
      (by decide) "C" 3 (by decide)).1⟩

theorem filter_listRemove (l : List (Object V)) (e : Object V) :
    (listRemove l e).filter (fun o => decide (o.key ≠ e.key)) =
      l.filter (fun o => decide (o.key ≠ e.key)) := by
  induction l with
  | nil => rfl
  | cons a t ih =>
    by_cases ha : a.key = e.key
    · have : listRemove (a :: t) e = t := by simp [listRemove, List.eraseP_cons, ha]
      rw [this]
      simp [List.filter_cons, ha]
    · have : listRemove (a :: t) e = a :: listRemove t e := by
        simp [listRemove, List.eraseP_cons, ha]
      rw [this]
      simp only [List.filter_cons, ih]

theorem listRemove_eq_filter (l : List (Object V)) (e : Object V)
    (hd : l.Pairwise (fun a b => a.key ≠ b.key)) :
    listRemove l e = l.filter (fun o => decide (o.key ≠ e.key)) := by
  induction l with
  | nil => rfl
  | cons a t ih =>
    rw [List.pairwise_cons] at hd
    by_cases ha : a.key = e.key
    · have h1 : listRemove (a :: t) e = t := by simp [listRemove, List.eraseP_cons, ha]
      have h2 : t.filter (fun o => decide (o.key ≠ e.key)) = t := by
        rw [List.filter_eq_self]
        intro o ho
        have := hd.1 o ho
        rw [ha] at this
        simpa using fun h => this h.symm
      rw [h1]
      simp only [List.filter_cons, ha, ne_eq, not_true_eq_false, decide_False,
        Bool.false_eq_true, if_false]
      exact h2.symm
    · have h1 : listRemove (a :: t) e = a :: listRemove t e := by
        simp [listRemove, List.eraseP_cons, ha]
      rw [h1, ih hd.2]
      simp [List.filter_cons, ha]

/-- C10. `Get` semantics. In a state reached from `New` with a capacity of at least one by
the history `ops`, `Get(k)` reports found exactly when `k` is present. When `k` is not
present it returns `(nil, false)` and the state is the same. When `k` is present with entry
`ob`, which is in the bucket of `ob.freq`, it returns `(ob.value, true)`, the value of the
last `Add` of `k` in the history; afterwards `objectMap[k]` is the entry with the same value
and the frequency plus one; the bucket of the new frequency is this entry pushed on the
front of the bucket as it was, which held no entry of `k`; the bucket of the old frequency
is the one before without the entry of `k`, the other entries in their order; every other
bucket is the same; so the entry of `k` is in the bucket of the new frequency and in no
other; `len`, `cap`, the keys and the entry of every other key are the same; and `minFreq`
is one more when it was the old frequency and the old bucket is now empty, the same
otherwise. -/
theorem lfu_get_semantics (cap : Int) (hcap : 1 ≤ cap) (ops : List (Op V)) (c : Cache V)
    (hrun : (New cap : Cache V).run ops = some c) (k : String) :
    ((∃ v c1, c.Get k = some ((v, true), c1)) ↔ ∃ ob, c.objectMap.get? k = some ob) ∧
    (c.objectMap.get? k = none → c.Get k = some ((none, false), c)) ∧
    (∀ ob, c.objectMap.get? k = some ob →
      ∃ c1, c.Get k = some ((some ob.value, true), c1) ∧
        lastAdded ops k = some ob.value ∧
        ob ∈ c.bucket ob.freq ∧
        c1.objectMap.get? k = some { ob with freq := ob.freq + 1 } ∧
        c1.bucket (ob.freq + 1) =
          { ob with freq := ob.freq + 1 } :: c.bucket (ob.freq + 1) ∧
        (∀ o ∈ c.bucket (ob.freq + 1), o.key ≠ k) ∧
        c1.bucket ob.freq = (c.bucket ob.freq).filter (fun o => decide (o.key ≠ k)) ∧
        (∀ f, f ≠ ob.freq → f ≠ ob.freq + 1 → c1.bucket f = c.bucket f) ∧
        (∀ f o, o ∈ c1.bucket f → o.key = k →
          f = ob.freq + 1 ∧ o = { ob with freq := ob.freq + 1 }) ∧
        (c1.bucket (ob.freq + 1)).head? = some { ob with freq := ob.freq + 1 } ∧
        c1.len = c.len ∧ c1.cap = c.cap ∧
        GoMap.keys c1.objectMap = GoMap.keys c.objectMap ∧
        (∀ x, x ≠ k → c1.objectMap.get? x = c.objectMap.get? x) ∧
        (∀ f, (c1.bucket f).filter (fun o => decide (o.key ≠ k)) =
          (c.bucket f).filter (fun o => decide (o.key ≠ k))) ∧
        c1.minFreq =
          if c.minFreq = ob.freq ∧ (c1.bucket ob.freq).length = 0 then c.minFreq + 1
          else c.minFreq) := by
  obtain ⟨hinv, _, _⟩ := inv_of_run cap (by omega) ops c hrun
  have hmiss : c.objectMap.get? k = none → c.Get k = some ((none, false), c) :=
    fun h => by simp only [Cache.Get, h]
  have hhit : ∀ ob, c.objectMap.get? k = some ob →
      ∃ c1, c.Get k = some ((some ob.value, true), c1) := by
    intro ob hget
    obtain ⟨c1, h1, _⟩ := Get_hit ops c k ob hinv hget
    exact ⟨c1, h1⟩
  refine ⟨?_, hmiss, ?_⟩
  · constructor
    · rintro ⟨v, c1, h⟩
      cases hg : c.objectMap.get? k with
      | some ob => exact ⟨ob, rfl⟩
      | none =>
        rw [hmiss hg] at h
        simp at h
    · rintro ⟨ob, hget⟩
      obtain ⟨c1, h1⟩ := hhit ob hget
      exact ⟨_, c1, h1⟩
  intro ob hget
  obtain ⟨c1, h1, h2, _⟩ := Get_hit ops c k ob hinv hget
  obtain ⟨hkey, _, hmem⟩ := hinv.obj k ob hget
  obtain ⟨c2, h4, hlen, hcap2, hom, hb, hmin⟩ :=
    increaseFreq_spec c ob (List.ne_nil_of_mem hmem)
  rw [h2] at h4
  cases h4
  subst hkey
  have F1 : ∀ g o, o ∈ c.bucket g → o.key = ob.key → g = ob.freq := by
    intro g o ho hk
    obtain ⟨hf, hg⟩ := hinv.bkt g o ho
    rw [hk, hget] at hg
    cases hg
    exact hf.symm
  have hnew : ∀ o ∈ c.bucket (ob.freq + 1), o.key ≠ ob.key := by
    intro o ho e
    have := F1 _ o ho e
    omega
  have hold : c1.bucket ob.freq =
      (c.bucket ob.freq).filter (fun o => decide (o.key ≠ ob.key)) := by
    have hne : ob.freq ≠ ob.freq + 1 := by omega
    rw [hb, if_neg hne, if_pos rfl]
    exact listRemove_eq_filter _ ob (keys_ne_of_order ops _ (hinv.order _))
  have hrest : ∀ f, f ≠ ob.freq → f ≠ ob.freq + 1 → c1.bucket f = c.bucket f := by
    intro f hf1 hf2
    rw [hb, if_neg hf2, if_neg hf1]
  have hfront : c1.bucket (ob.freq + 1) =
      { ob with freq := ob.freq + 1 } :: c.bucket (ob.freq + 1) := by
    rw [hb, if_pos rfl]
  refine ⟨c1, h1, hinv.value _ ob hget, hmem, ?_, hfront, hnew, hold, hrest, ?_, ?_, hlen,
    hcap2, ?_, ?_, ?_, ?_⟩
  · rw [hom, GoMap.get?_set_self]
  · intro f o ho hok
    by_cases hf1 : f = ob.freq + 1
    · subst hf1
      rw [hfront, List.mem_cons] at ho
      rcases ho with ho | ho
      · exact ⟨rfl, ho⟩
      · exact absurd hok (hnew o ho)
    · by_cases hf2 : f = ob.freq
      · subst hf2
        rw [hold, List.mem_filter] at ho
        simp [hok] at ho
      · rw [hrest f hf2 hf1] at ho
        exact absurd (F1 f o ho hok) hf2
  · rw [hfront]
    rfl
  · rw [hom]
    exact GoMap.keys_set_of_mem _ _ _ ob hget
  · intro x hx
    rw [hom, GoMap.get?_set_ne _ _ (fun e => hx e.symm)]
  · intro f
    rw [hb]
    by_cases hf1 : f = ob.freq + 1
    · rw [if_pos hf1]
      simp [List.filter_cons]
    · rw [if_neg hf1]
      by_cases hf2 : f = ob.freq
      · rw [if_pos hf2]
        exact filter_listRemove _ ob
      · rw [if_neg hf2]
  · have hne : ob.freq ≠ ob.freq + 1 := by omega
    rw [hmin, hb, if_neg hne, if_pos rfl]

theorem lfu_get_semantics_witness :
    ∃ c : Cache Nat, (New 2 : Cache Nat).run [Op.add "A" 1, Op.add "B" 2] = some c ∧
      c.objectMap.get? "A" = some { key := "A", value := 1, freq := 1 } ∧
      (∃ c1, c.Get "A" = some ((some 1, true), c1) ∧
        lastAdded [Op.add "A" 1, Op.add "B" 2] "A" = some 1 ∧
        ({ key := "A", value := 1, freq := 1 } : Object Nat) ∈ c.bucket 1 ∧
        c1.objectMap.get? "A" = some { key := "A", value := 1, freq := 2 } ∧
        c1.bucket 2 = { key := "A", value := 1, freq := 2 } :: c.bucket 2 ∧
        (∀ o ∈ c.bucket 2, o.key ≠ "A") ∧
        c1.bucket 1 = (c.bucket 1).filter (fun o => decide (o.key ≠ "A")) ∧
        (∀ f, f ≠ 1 → f ≠ 2 → c1.bucket f = c.bucket f) ∧
        (∀ f o, o ∈ c1.bucket f → o.key = "A" →
          f = 2 ∧ o = { key := "A", value := 1, freq := 2 }) ∧
        (c1.bucket 2).head? = some { key := "A", value := 1, freq := 2 } ∧
        c1.len = c.len ∧ c1.cap = c.cap ∧
        GoMap.keys c1.objectMap = GoMap.keys c.objectMap ∧
        (∀ x, x ≠ "A" → c1.objectMap.get? x = c.objectMap.get? x) ∧
        (∀ f, (c1.bucket f).filter (fun o => decide (o.key ≠ "A")) =
          (c.bucket f).filter (fun o => decide (o.key ≠ "A"))) ∧
        c1.minFreq =
          if c.minFreq = 1 ∧ (c1.bucket 1).length = 0 then c.minFreq + 1 else c.minFreq) ∧
      c.objectMap.get? "C" = none ∧ c.Get "C" = some ((none, false), c) :=
  ⟨_, rfl, by rfl,
    (lfu_get_semantics 2 (by decide) [Op.add "A" 1, Op.add "B" 2] _ (by rfl) "A").2.2
      { key := "A", value := 1, freq := 1 } (by rfl),
    by rfl,
    (lfu_get_semantics 2 (by decide) [Op.add "A" 1, Op.add "B" 2] _ (by rfl) "C").2.1
      (by rfl)⟩

end lfu

/-! ## The guarded cache and the coalescing executor, one caller at a time -/

namespace lfu

variable {V : Type}

theorem Add_absent (cap : Int) (hcap : cap ≠ 0) (ops : List (Op V)) (l : Cache V)
    (hrun : (New cap : Cache V).run ops = some l) (k : String) (v : V)
    (hget : l.objectMap.get? k = none) :
    ∃ l1, l.Add k v = some l1 ∧ (New cap : Cache V).run (ops ++ [Op.add k v]) = some l1 ∧
      l1.objectMap.get? k = some (InitObject k v 1) := by
  obtain ⟨hinv, hc, _⟩ := inv_of_run cap hcap ops l hrun
  have hr : ∀ l1, l.Add k v = some l1 →
      (New cap : Cache V).run (ops ++ [Op.add k v]) = some l1 := by
    intro l1 h
    rw [run_append, hrun]
    simp [Cache.run, Cache.step, h]
  by_cases hlen : l.len = l.cap
  · obtain ⟨l1, ev, h1, _, _, _, _, _, _, hom⟩ :=
      Add_new_full ops l k v hinv hget hlen (by rw [hc]; exact hcap)
    exact ⟨l1, h1, hr l1 h1, by rw [hom, GoMap.get?_set_self]⟩
  · obtain ⟨l1, h1, _, _, _, hom⟩ := Add_new_room ops l k v hinv hget hlen
    exact ⟨l1, h1, hr l1 h1, by rw [hom, GoMap.get?_set_self]⟩

theorem Get_present (cap : Int) (hcap : cap ≠ 0) (ops : List (Op V)) (l : Cache V)
    (hrun : (New cap : Cache V).run ops = some l) (k : String) (ob : Object V)
    (hget : l.objectMap.get? k = some ob) :
    ∃ l1, l.Get k = some ((some ob.value, true), l1) ∧
      (New cap : Cache V).run (ops ++ [Op.get k]) = some l1 := by
  obtain ⟨hinv, _, _⟩ := inv_of_run cap hcap ops l hrun
  obtain ⟨l1, h1, _, _⟩ := Get_hit ops l k ob hinv hget
  refine ⟨l1, h1, ?_⟩
  rw [run_append, hrun]
  simp [Cache.run, Cache.step, h1]

end lfu

namespace singleflight

theorem Do_idle {R σ : Type} (g : Group R) (key : String)
    (fn : σ → Option ((Option R × Option Error) × σ)) (st st1 : σ)
    (r : Option R × Option Error) (hidle : g.inflight key = false)
    (hfn : fn st = some (r, st1)) :
    ∃ ld, g.Do key fn st = some (r, ld, st1) ∧ ld.inflight key = false := by
  obtain ⟨val, err⟩ := r
  have hm : GoMap.get? (match g.m with | none => [] | some m => m) key = none := by
    unfold Group.inflight at hidle
    cases hg : g.m with
    | none => rfl
    | some m =>
      rw [hg] at hidle
      cases h : GoMap.get? m key with
      | none => rfl
      | some c => simp [h] at hidle
  refine ⟨{ m := some (GoMap.delete (GoMap.set (GoMap.set
      (match g.m with | none => [] | some m => m) key
      { done := false, val := none, err := none }) key
      { done := true, val := val, err := err }) key) }, ?_, ?_⟩
  · simp only [Group.Do, hm, hfn]
  · simp [Group.inflight, GoMap.get?_delete_self]

end singleflight

namespace rainCache

theorem cloneBytes_eq (b : List UInt8) : cloneBytes b = b := by
  simp [cloneBytes, copy]

theorem cache_get_miss (c : cache) (key : String) (h : c.lookup key = none) :
    c.get key = some ((⟨[]⟩, false), c) := by
  obtain ⟨lf, cb⟩ := c
  cases lf with
  | none => rfl
  | some l =>
    have hg : l.objectMap.get? key = none := by
      simpa [cache.lookup] using h
    simp [cache.get, lfu.Cache.Get, hg]

theorem cache_add_absent (c : cache) (key : String) (v : ByteView) (hv : c.Valid)
    (hcap : c.cacheBytes ≠ 0) (h : c.lookup key = none) :
    ∃ c1, c.add key v = some c1 ∧ c1.Valid ∧ c1.cacheBytes = c.cacheBytes ∧
      c1.lookup key = some v := by
  obtain ⟨lf, cb⟩ := c
  have main : ∀ (l : lfu.Cache ByteView) (ops : List (lfu.Op ByteView)),
      (lfu.New cb : lfu.Cache ByteView).run ops = some l → l.objectMap.get? key = none →
      ∃ l1, l.Add key v = some l1 ∧
        (∃ ops1, (lfu.New cb : lfu.Cache ByteView).run ops1 = some l1) ∧
        l1.objectMap.get? key = some (lfu.InitObject key v 1) := by
    intro l ops hrun hget
    obtain ⟨l1, h1, h2, h3⟩ := lfu.Add_absent cb hcap ops l hrun key v hget
    exact ⟨l1, h1, ⟨_, h2⟩, h3⟩
  cases lf with
  | none =>
    obtain ⟨l1, h1, h2, h3⟩ := main (lfu.New cb) [] rfl rfl
    refine ⟨{ lfu := some l1, cacheBytes := cb }, by simp [cache.add, h1], h2, rfl, ?_⟩
    simp [cache.lookup, h3, lfu.InitObject]
  | some l =>
    obtain ⟨ops, hrun⟩ := hv
    have hg : l.objectMap.get? key = none := by
      simpa [cache.lookup] using h
    obtain ⟨l1, h1, h2, h3⟩ := main l ops hrun hg
    refine ⟨{ lfu := some l1, cacheBytes := cb }, by simp [cache.add, h1], h2, rfl, ?_⟩
    simp [cache.lookup, h3, lfu.InitObject]

theorem cache_get_hit (c : cache) (key : String) (v : ByteView) (hv : c.Valid)
    (hcap : c.cacheBytes ≠ 0) (h : c.lookup key = some v) :
    ∃ c1, c.get key = some ((v, true), c1) ∧ c1.Valid ∧ c1.cacheBytes = c.cacheBytes := by
  obtain ⟨lf, cb⟩ := c
  cases lf with
  | none => simp [cache.lookup] at h
  | some l =>
    obtain ⟨ops, hrun⟩ := hv
    obtain ⟨ob, hob, hval⟩ : ∃ ob, l.objectMap.get? key = some ob ∧ ob.value = v := by
      simpa [cache.lookup] using h
    obtain ⟨l1, h1, h2⟩ := lfu.Get_present cb hcap ops l hrun key ob hob
    refine ⟨{ lfu := some l1, cacheBytes := cb }, ?_, ⟨_, h2⟩, rfl⟩
    simp [cache.get, h1, hval]

theorem Get_miss (g : Group) (key : String) (hkey : key ≠ "")
    (hmiss : g.mainCache.lookup key = none) :
    g.Get key = Group.load { g with calls := g.calls ++ [Call.cacheGet key] } key := by
  simp [Group.Get, hkey, cache_get_miss _ _ hmiss]

theorem load_of_loadFn (g g1 : Group) (key : String) (v : ByteView) (e : Option Error)
    (hidle : g.loader.inflight key = false)
    (hfn : Group.loadFn key g = some ((some v, e), g1)) :
    ∃ ld, ld.inflight key = false ∧
      g.load key = some (((match e with
        | some _ => v
        | none => ⟨[]⟩), none), { g1 with loader := ld }) := by
  obtain ⟨ld, h1, h2⟩ := singleflight.Do_idle g.loader key (Group.loadFn key) g g1 _ hidle hfn
  refine ⟨ld, h2, ?_⟩
  cases e <;> simp [Group.load, h1]

theorem load_of_loadFn_none (g : Group) (key : String)
    (hidle : g.loader.inflight key = false) (hfn : Group.loadFn key g = none) :
    g.load key = none := by
  have hdo : g.loader.Do key (Group.loadFn key) g = none := by
    unfold singleflight.Group.inflight at hidle
    unfold singleflight.Group.Do
    cases hg : g.loader.m with
    | none => simp [GoMap.get?, hfn]
    | some m =>
      rw [hg] at hidle
      have hm : GoMap.get? m key = none := by
        cases h : GoMap.get? m key with
        | none => rfl
        | some c => simp [h] at hidle
      simp [hm, hfn]
  simp [Group.load, hdo]

end rainCache

/-! ## The states of a group between two calls -/

namespace rainCache

theorem cache_add_valid (c c1 : cache) (key : String) (v : ByteView) (hv : c.Valid)
    (h : c.add key v = some c1) : c1.Valid ∧ c1.cacheBytes = c.cacheBytes := by
  obtain ⟨lf, cb⟩ := c
  have main : ∀ (l : lfu.Cache ByteView) (ops : List (lfu.Op ByteView)),
      (lfu.New cb : lfu.Cache ByteView).run ops = some l →
      (match l.Add key v with
        | none => none
        | some l1 => some ({ lfu := some l1, cacheBytes := cb } : cache)) = some c1 →
      c1.Valid ∧ c1.cacheBytes = cb := by
    intro l ops hrun h
    cases hadd : l.Add key v with
    | none => simp [hadd] at h
    | some l1 =>
      simp only [hadd, Option.some.injEq] at h
      subst h
      refine ⟨⟨ops ++ [lfu.Op.add key v], ?_⟩, rfl⟩
      rw [lfu.run_append, hrun]
      simp [lfu.Cache.run, lfu.Cache.step, hadd]
  cases lf with
  | none => exact main (lfu.New cb) [] rfl h
  | some l =>
    obtain ⟨ops, hrun⟩ := hv
    exact main l ops hrun h

theorem cache_get_valid (c c1 : cache) (key : String) (r : ByteView × Bool) (hv : c.Valid)
    (h : c.get key = some (r, c1)) : c1.Valid ∧ c1.cacheBytes = c.cacheBytes := by
  obtain ⟨lf, cb⟩ := c
  cases lf with
  | none =>
    simp only [cache.get, Option.some.injEq, Prod.mk.injEq] at h
    rw [← h.2]
    exact ⟨hv, rfl⟩
  | some l =>
    obtain ⟨ops, hrun⟩ := hv
    cases hget : l.Get key with
    | none => simp [cache.get, hget] at h
    | some p =>
      obtain ⟨⟨v, ok⟩, l1⟩ := p
      have hr : (lfu.New cb : lfu.Cache ByteView).run (ops ++ [lfu.Op.get key]) = some l1 := by
        rw [lfu.run_append, hrun]
        simp [lfu.Cache.run, lfu.Cache.step, hget]
      have hv1 : cache.Valid { lfu := some l1, cacheBytes := cb } := ⟨_, hr⟩
      simp only [cache.get, hget] at h
      cases ok with
      | false =>
        simp only [Bool.false_eq_true, if_false, Option.some.injEq, Prod.mk.injEq] at h
        rw [← h.2]
        exact ⟨hv1, rfl⟩
      | true =>
        cases v with
        | none => simp at h
        | some bv =>
          simp only [if_true, Option.some.injEq, Prod.mk.injEq] at h
          rw [← h.2]
          exact ⟨hv1, rfl⟩

/-- What a method of the group keeps: the cache stays in a state its methods produce, and
the configuration of the group and its loader are the same. -/
theorem getLocally_keeps (g g1 : Group) (key : String) (r : ByteView × Option Error)
    (hv : g.mainCache.Valid) (h : g.getLocally key = some (r, g1)) :
    g1.mainCache.Valid ∧ g1.mainCache.cacheBytes = g.mainCache.cacheBytes ∧
      g1.loader = g.loader ∧ g1.peers = g.peers ∧ g1.getter = g.getter ∧
      g1.name = g.name := by
  unfold Group.getLocally at h
  cases hs : (g.getter.Get key).2 with
  | some e =>
    simp only [hs, Option.some.injEq, Prod.mk.injEq] at h
    rw [← h.2]
    exact ⟨hv, rfl, rfl, rfl, rfl, rfl⟩
  | none =>
    simp only [hs, Group.populateCache] at h
    cases hadd : g.mainCache.add key ⟨cloneBytes (g.getter.Get key).1⟩ with
    | none => simp [hadd] at h
    | some c1 =>
      simp only [hadd, Option.some.injEq, Prod.mk.injEq] at h
      obtain ⟨h1, h2⟩ := cache_add_valid g.mainCache c1 key _ hv hadd
      rw [← h.2]
      exact ⟨h1, h2, rfl, rfl, rfl, rfl⟩

theorem loadFn_keeps (g g1 : Group) (key : String) (r : Option ByteView × Option Error)
    (hv : g.mainCache.Valid) (h : Group.loadFn key g = some (r, g1)) :
    g1.mainCache.Valid ∧ g1.mainCache.cacheBytes = g.mainCache.cacheBytes ∧
      g1.loader = g.loader ∧ g1.peers = g.peers ∧ g1.getter = g.getter ∧
      g1.name = g.name := by
  have viaLocal : ∀ (g0 : Group), g0.mainCache.Valid →
      Option.map (fun x : (ByteView × Option Error) × Group => ((some x.1.1, x.1.2), x.2))
        (g0.getLocally key) = some (r, g1) →
      g1.mainCache.Valid ∧ g1.mainCache.cacheBytes = g0.mainCache.cacheBytes ∧
        g1.loader = g0.loader ∧ g1.peers = g0.peers ∧ g1.getter = g0.getter ∧
        g1.name = g0.name := by
    intro g0 hv0 h0
    cases hl : g0.getLocally key with
    | none => simp [hl] at h0
    | some p =>
      simp only [hl, Option.map_some', Option.some.injEq, Prod.mk.injEq] at h0
      have := getLocally_keeps g0 p.2 key p.1 hv0 hl
      rw [h0.2] at this
      exact this
  have viaPeer : ∀ (g0 : Group) (peer : PeerGetter),
      (g0.getFromPeer peer key).2.mainCache = g0.mainCache ∧
      (g0.getFromPeer peer key).2.loader = g0.loader ∧
      (g0.getFromPeer peer key).2.peers = g0.peers ∧
      (g0.getFromPeer peer key).2.getter = g0.getter ∧
      (g0.getFromPeer peer key).2.name = g0.name := by
    intro g0 peer
    unfold Group.getFromPeer
    dsimp only
    cases (peer.Get { Group := g0.name, Key := key } { Value := [] }).2 <;>
      exact ⟨rfl, rfl, rfl, rfl, rfl⟩
  unfold Group.loadFn at h
  split at h
  · rename_i picker hp
    dsimp only at h
    split at h
    · obtain ⟨f1, f2, f3, f4, f5⟩ := viaPeer
        { g with calls := g.calls ++ [Call.pickPeer key] } (picker.PickPeer key).1
      split at h
      · simp only [Option.some.injEq, Prod.mk.injEq] at h
        rw [← h.2, f1, f2, f3, f4, f5]
        exact ⟨hv, rfl, rfl, rfl, rfl, rfl⟩
      · have := viaLocal _ (by rw [f1]; exact hv) h
        rw [f1, f2, f3, f4, f5] at this
        exact this
    · exact viaLocal { g with calls := g.calls ++ [Call.pickPeer key] } hv h
  · exact viaLocal g hv h

theorem Do_keeps_idle {R σ : Type} (g ld : singleflight.Group R) (key : String)
    (fn : σ → Option ((Option R × Option Error) × σ)) (st st1 : σ)
    (r : Option R × Option Error) (hidle : ∀ k, g.inflight k = false)
    (h : g.Do key fn st = some (r, ld, st1)) :
    fn st = some (r, st1) ∧ ∀ k, ld.inflight k = false := by
  have hm : ∀ k, GoMap.get? (match g.m with | none => [] | some m => m) k = none := by
    intro k
    have hk := hidle k
    unfold singleflight.Group.inflight at hk
    cases hg : g.m with
    | none => rfl
    | some m =>
      rw [hg] at hk
      cases h : GoMap.get? m k with
      | none => rfl
      | some c => simp [h] at hk
  simp only [singleflight.Group.Do, hm key] at h
  cases hfn : fn st with
  | none => simp [hfn] at h
  | some p =>
    obtain ⟨⟨val, err⟩, st2⟩ := p
    simp only [hfn, Option.some.injEq, Prod.mk.injEq] at h
    obtain ⟨h1, h2, h3⟩ := h
    refine ⟨by rw [← h1, ← h3], ?_⟩
    intro k
    rw [← h2]
    by_cases hk : key = k
    · subst hk
      simp [singleflight.Group.inflight, GoMap.get?_delete_self]
    · simp [singleflight.Group.inflight, GoMap.get?_delete_ne _ hk, GoMap.get?_set_ne _ _ hk,
        hm k]

theorem load_keeps (g g1 : Group) (key : String) (r : ByteView × Option Error)
    (hs : g.Sound) (h : g.load key = some (r, g1)) :
    g1.Sound ∧ g1.mainCache.cacheBytes = g.mainCache.cacheBytes ∧ g1.peers = g.peers ∧
      g1.getter = g.getter ∧ g1.name = g.name := by
  unfold Group.load at h
  cases hdo : g.loader.Do key (Group.loadFn key) g with
  | none => simp [hdo] at h
  | some p =>
    obtain ⟨⟨viewi, err⟩, ld, g2⟩ := p
    obtain ⟨hfn, hidle⟩ := Do_keeps_idle g.loader ld key _ g g2 _ hs.2 hdo
    obtain ⟨k1, k2, _, k4, k5, k6⟩ := loadFn_keeps g g2 key _ hs.1 hfn
    simp only [hdo] at h
    have key2 : ∀ g3 : Group, g3 = { g2 with loader := ld } →
        g3.Sound ∧ g3.mainCache.cacheBytes = g.mainCache.cacheBytes ∧ g3.peers = g.peers ∧
          g3.getter = g.getter ∧ g3.name = g.name := by
      intro g3 e
      subst e
      exact ⟨⟨k1, hidle⟩, k2, k4, k5, k6⟩
    cases err with
    | none =>
      simp only [Option.some.injEq, Prod.mk.injEq] at h
      exact key2 g1 h.2.symm
    | some e =>
      cases viewi with
      | none => simp at h
      | some bv =>
        simp only [Option.some.injEq, Prod.mk.injEq] at h
        exact key2 g1 h.2.symm

/-- The hypotheses made below on the state of a group hold between any two calls of one
caller: they hold for the group `NewGroup` returns, and `RegisterPeers` and `Get` keep
them, and keep the configuration of the group, whenever they return. -/
theorem Sound_kept (g g1 : Group) :
    (∀ groups name cacheBytes getter groups1,
      NewGroup groups name cacheBytes getter = some (g, groups1) →
        g.Sound ∧ g.mainCache.cacheBytes = cacheBytes ∧ g.peers = none) ∧
    (∀ p, g.Sound → g.RegisterPeers p = some g1 →
      g1.Sound ∧ g1.mainCache.cacheBytes = g.mainCache.cacheBytes) ∧
    (∀ key r, g.Sound → g.Get key = some (r, g1) →
      g1.Sound ∧ g1.mainCache.cacheBytes = g.mainCache.cacheBytes ∧ g1.peers = g.peers ∧
        g1.getter = g.getter ∧ g1.name = g.name) := by
  refine ⟨?_, ?_, ?_⟩
  · intro groups name cacheBytes getter groups1 h
    cases getter with
    | none => simp [NewGroup] at h
    | some gt =>
      simp only [NewGroup, Option.some.injEq, Prod.mk.injEq] at h
      rw [← h.1]
      exact ⟨⟨trivial, fun k => rfl⟩, rfl, rfl⟩
  · intro p hs h
    unfold Group.RegisterPeers at h
    split at h
    · cases h
    · simp only [Option.some.injEq] at h
      rw [← h]
      exact ⟨⟨hs.1, hs.2⟩, rfl⟩
  · intro key r hs h
    unfold Group.Get at h
    split at h
    · simp only [Option.some.injEq, Prod.mk.injEq] at h
      rw [← h.2]
      exact ⟨⟨hs.1, hs.2⟩, rfl, rfl, rfl, rfl⟩
    · cases hget : g.mainCache.get key with
      | none => simp [hget] at h
      | some p =>
        obtain ⟨⟨v, ok⟩, c1⟩ := p
        obtain ⟨hv1, hc1⟩ := cache_get_valid g.mainCache c1 key _ hs.1 hget
        simp only [hget] at h
        cases ok with
        | true =>
          simp only [if_true, Option.some.injEq, Prod.mk.injEq] at h
          rw [← h.2]
          exact ⟨⟨hv1, hs.2⟩, hc1, rfl, rfl, rfl⟩
        | false =>
          simp only [Bool.false_eq_true, if_false] at h
          obtain ⟨k1, k2, k3, k4, k5⟩ := load_keeps
            { g with mainCache := c1, calls := g.calls ++ [Call.cacheGet key] } g1 key r
            ⟨hv1, hs.2⟩ h
          exact ⟨k1, k2.trans hc1, k3, k4, k5⟩

end rainCache

/-! ## The cache group -/

namespace rainCache

/-- C3. Empty-key rejection. For every state of the group, `Get("")` returns the zero
`ByteView` with the error "key is required", and the state after the call is the state
before it: `mainCache` is the same (allocated or not, same entries and frequencies) and the
history `calls` is the same, so the call has not called `mainCache.get`, `mainCache.add`,
the source callback, the picker or a peer. -/
theorem Get_empty_key (g : Group) :
    ∃ r g1, g.Get "" = some (r, g1) ∧ r = (⟨[]⟩, some "key is required") ∧ r.2 ≠ none ∧
      g1 = g ∧ g1.mainCache = g.mainCache ∧ g1.calls = g.calls := by
  refine ⟨(⟨[]⟩, some "key is required"), g, ?_, rfl, ?_, rfl, rfl, rfl⟩
  · simp [Group.Get]
  · simp

/-- C7. `RegisterPeers` attaches a picker once. On a group with no picker the call returns
and the group is the one before with `peers` set to the argument, every other field the
same; on a group that has a picker every call panics, before any assignment to `peers`. -/
theorem RegisterPeers_once (g : Group) (p : Option PeerPicker) :
    (g.peers = none → g.RegisterPeers p = some { g with peers := p }) ∧
    (∀ q, g.peers = some q → g.RegisterPeers p = none) := by
  refine ⟨fun h => by simp [Group.RegisterPeers, h], fun q h => by simp [Group.RegisterPeers, h]⟩

theorem RegisterPeers_once_witness :
    (∃ g g1 : Group, setup "scores" 1 (sourceOf [7]) none = some g ∧
      g.RegisterPeers (some (pickerOf (peerReturning [9]))) = some g1 ∧
      g1 = { g with peers := some (pickerOf (peerReturning [9])) } ∧
      g1.RegisterPeers (some (pickerOf (failingPeer "down"))) = none) :=
  ⟨_, _, rfl,
    (RegisterPeers_once _ (some (pickerOf (peerReturning [9])))).1 rfl, rfl,
    (RegisterPeers_once _ (some (pickerOf (failingPeer "down")))).2 _ rfl⟩

/-- C5. Peer delegation does not populate the local cache. For a group with a picker, a
non-empty key that is not in the local cache and no call for the key in flight: when the
picker selects a peer and the fetch from it succeeds, `Get(key)` returns, `mainCache` is
afterwards the same as before, and the calls made are `mainCache.get`, `PickPeer` and the
fetch from the peer, in this order: no `mainCache.add` and no call of the source callback. -/
theorem Get_peer_hit_frame (g : Group) (key : String) (picker : PeerPicker)
    (peer : PeerGetter) (res : Response) (hkey : key ≠ "")
    (hpeers : g.peers = some picker) (hmiss : g.mainCache.lookup key = none)
    (hidle : g.loader.inflight key = false) (hpick : picker.PickPeer key = (peer, true))
    (hfetch : peer.Get { Group := g.name, Key := key } { Value := [] } = (res, none)) :
    ∃ r g1, g.Get key = some (r, g1) ∧ g1.mainCache = g.mainCache ∧
      g1.mainCache.lookup key = none ∧
      g1.calls = g.calls ++ [Call.cacheGet key, Call.pickPeer key,
        Call.peerGet { Group := g.name, Key := key }] ∧
      Call.getter key ∉ g1.calls.drop g.calls.length ∧
      Call.cacheAdd key ∉ g1.calls.drop g.calls.length := by
  rw [Get_miss g key hkey hmiss]
  have hfn : Group.loadFn key { g with calls := g.calls ++ [Call.cacheGet key] } =
      some ((some ⟨res.Value⟩, none),
        { g with calls := g.calls ++ [Call.cacheGet key] ++ [Call.pickPeer key] ++
            [Call.peerGet { Group := g.name, Key := key }] }) := by
    simp [Group.loadFn, hpeers, hpick, Group.getFromPeer, hfetch]
  obtain ⟨ld, _, h2⟩ :=
    load_of_loadFn { g with calls := g.calls ++ [Call.cacheGet key] } _ key _ _ hidle hfn
  refine ⟨_, _, h2, rfl, hmiss, by simp, ?_, ?_⟩ <;> simp

theorem Get_peer_hit_frame_witness :
    ∃ g, setup "scores" 1 (sourceOf [7]) (some (pickerOf (peerReturning [9]))) = some g ∧
      ∃ r g1, g.Get "x" = some (r, g1) ∧ g1.mainCache = g.mainCache ∧
        g1.mainCache.lookup "x" = none ∧
        g1.calls = g.calls ++ [Call.cacheGet "x", Call.pickPeer "x",
          Call.peerGet { Group := g.name, Key := "x" }] ∧
        Call.getter "x" ∉ g1.calls.drop g.calls.length ∧
        Call.cacheAdd "x" ∉ g1.calls.drop g.calls.length :=
  ⟨_, rfl, Get_peer_hit_frame _ "x" (pickerOf (peerReturning [9])) (peerReturning [9])
    { Value := [9] } (by decide) rfl rfl rfl rfl rfl⟩

/-- C4. Sequential read-through. For a group with `cacheBytes >= 1` and no picker, whose
cache is in a state its methods produce, a non-empty key `x` that is not in the cache, no
call for `x` in flight and a source callback that returns `b` for `x`: a first `Get(x)`
returns and leaves `x` in the cache with value `b`; a second `Get(x)` returns the `ByteView`
of contents `b` with a nil error; the calls made by the two are `mainCache.get`, the source
callback, `mainCache.add` and, for the second `Get`, `mainCache.get` alone, so the callback
has been called exactly once. -/
theorem Get_read_through (g : Group) (x : String) (b : List UInt8)
    (hcap : 1 ≤ g.mainCache.cacheBytes) (hvalid : g.mainCache.Valid)
    (hpeers : g.peers = none) (hx : x ≠ "") (hmiss : g.mainCache.lookup x = none)
    (hidle : g.loader.inflight x = false) (hsrc : g.getter.Get x = (b, none)) :
    ∃ r1 g1 g2, g.Get x = some (r1, g1) ∧ g1.mainCache.lookup x = some ⟨b⟩ ∧
      g1.calls = g.calls ++ [Call.cacheGet x, Call.getter x, Call.cacheAdd x] ∧
      g1.Get x = some ((⟨b⟩, none), g2) ∧
      g2.calls = g1.calls ++ [Call.cacheGet x] ∧
      (g2.calls.drop g.calls.length).count (Call.getter x) = 1 := by
  have hcap0 : g.mainCache.cacheBytes ≠ 0 := by omega
  obtain ⟨c1, hadd, hv1, hcb1, hl1⟩ := cache_add_absent g.mainCache x ⟨b⟩ hvalid hcap0 hmiss
  obtain ⟨c2, hget2, _, _⟩ := cache_get_hit c1 x ⟨b⟩ hv1 (by rw [hcb1]; exact hcap0) hl1
  rw [Get_miss g x hx hmiss]
  have hfn : Group.loadFn x { g with calls := g.calls ++ [Call.cacheGet x] } =
      some ((some ⟨b⟩, none),
        { g with
          mainCache := c1
          calls := g.calls ++ [Call.cacheGet x] ++ [Call.getter x] ++ [Call.cacheAdd x] }) := by
    simp [Group.loadFn, hpeers, Group.getLocally, hsrc, cloneBytes_eq, Group.populateCache,
      hadd]
  obtain ⟨ld, _, h2⟩ :=
    load_of_loadFn { g with calls := g.calls ++ [Call.cacheGet x] } _ x _ _ hidle hfn
  have h3 : ∀ g1 : Group, g1.mainCache = c1 →
      ∃ g2, g1.Get x = some ((⟨b⟩, none), g2) ∧ g2.calls = g1.calls ++ [Call.cacheGet x] := by
    intro g1 hm
    refine ⟨{ g1 with mainCache := c2, calls := g1.calls ++ [Call.cacheGet x] }, ?_, rfl⟩
    simp [Group.Get, hx, hm, hget2]
  obtain ⟨g2, h4, h5⟩ := h3 { g with
    mainCache := c1
    loader := ld
    calls := g.calls ++ [Call.cacheGet x] ++ [Call.getter x] ++ [Call.cacheAdd x] } rfl
  refine ⟨_, _, g2, h2, hl1, by simp, h4, h5, ?_⟩
  rw [h5]
  simp [List.count_cons]

theorem Get_read_through_witness :
    ∃ g, setup "scores" 1 (sourceOf [7]) none = some g ∧
      ∃ r1 g1 g2, g.Get "x" = some (r1, g1) ∧ g1.mainCache.lookup "x" = some ⟨[7]⟩ ∧
        g1.calls = g.calls ++ [Call.cacheGet "x", Call.getter "x", Call.cacheAdd "x"] ∧
        g1.Get "x" = some ((⟨[7]⟩, none), g2) ∧
        g2.calls = g1.calls ++ [Call.cacheGet "x"] ∧
        (g2.calls.drop g.calls.length).count (Call.getter "x") = 1 :=
  ⟨_, rfl, Get_read_through _ "x" [7] (by decide) (by trivial) (by rfl) (by decide) (by rfl) (by rfl) (by rfl)⟩

/-- C6, the claim as stated fails. On the group `NewGroup("scores", 0, getter)` with a picker
registered, the key `x` misses the cache, the picker selects a peer, the fetch fails and the
callback returns the byte `7`; `Get("x")` then does not return: the first `add` of the
fall-back allocates `lfu.New(0, nil)`, whose `Add` takes the eviction branch and panics in
`eliminate`. Nothing is stored under `x`. -/
theorem Get_peer_failure_zero_capacity :
    setup "scores" 0 (sourceOf [7]) (some (pickerOf (failingPeer "down"))) =
      some zeroCapacityGroup ∧
    zeroCapacityGroup.peers.isSome = true ∧
    zeroCapacityGroup.mainCache.lookup "x" = none ∧
    (pickerOf (failingPeer "down")).PickPeer "x" = (failingPeer "down", true) ∧
    ((failingPeer "down").Get { Group := "scores", Key := "x" } { Value := [] }).2 =
      some "down" ∧
    zeroCapacityGroup.getter.Get "x" = ([7], none) ∧
    zeroCapacityGroup.Get "x" = none ∧
    ¬ ∃ r g1, zeroCapacityGroup.Get "x" = some (r, g1) ∧
      g1.mainCache.lookup "x" = some ⟨[7]⟩ := by
  have h : zeroCapacityGroup.Get "x" = none := rfl
  refine ⟨rfl, rfl, rfl, rfl, rfl, rfl, h, ?_⟩
  rintro ⟨r, g1, h1, _⟩
  rw [h] at h1
  cases h1

/-- C6, amended. For a group with a picker whose `cacheBytes` is not `0` and whose cache is
in a state its methods produce, a non-empty key that is not in the cache and no call for the
key in flight: when the picker selects a peer and the fetch from it fails, `Get(key)`
returns; after the fetch it calls the source callback with `key` exactly once; when the
callback returns `b` with a nil error it calls `mainCache.add`, after which the cache holds
the `ByteView` of contents `b` under `key`; and the error of the peer is not returned: the
error `Get` returns is nil or the one of the callback. -/
theorem Get_peer_failure_falls_back (g : Group) (key : String) (picker : PeerPicker)
    (peer : PeerGetter) (out : Response) (perr : Error) (b : List UInt8)
    (se : Option Error) (hkey : key ≠ "") (hpeers : g.peers = some picker)
    (hcap : g.mainCache.cacheBytes ≠ 0) (hvalid : g.mainCache.Valid)
    (hmiss : g.mainCache.lookup key = none) (hidle : g.loader.inflight key = false)
    (hpick : picker.PickPeer key = (peer, true))
    (hfetch : peer.Get { Group := g.name, Key := key } { Value := [] } = (out, some perr))
    (hsrc : g.getter.Get key = (b, se)) :
    ∃ r g1, g.Get key = some (r, g1) ∧ (r.2 = none ∨ r.2 = se) ∧
      (g1.calls.drop g.calls.length).count (Call.getter key) = 1 ∧
      g1.calls = g.calls ++ [Call.cacheGet key, Call.pickPeer key,
          Call.peerGet { Group := g.name, Key := key }, Call.getter key] ++
        (match se with
          | none => [Call.cacheAdd key]
          | some _ => []) ∧
      (se = none → g1.mainCache.lookup key = some ⟨b⟩) := by
  rw [Get_miss g key hkey hmiss]
  cases se with
  | some e =>
    have hfn : Group.loadFn key { g with calls := g.calls ++ [Call.cacheGet key] } =
        some ((some ⟨[]⟩, some e),
          { g with
            calls := g.calls ++ [Call.cacheGet key] ++ [Call.pickPeer key] ++
              [Call.peerGet { Group := g.name, Key := key }] ++ [Call.getter key] }) := by
      simp [Group.loadFn, hpeers, hpick, Group.getFromPeer, hfetch, Group.getLocally, hsrc]
    obtain ⟨ld, _, h2⟩ :=
      load_of_loadFn { g with calls := g.calls ++ [Call.cacheGet key] } _ key _ _ hidle hfn
    refine ⟨_, _, h2, Or.inl rfl, ?_, by simp, ?_⟩
    · simp [List.count_cons]
    · intro h
      cases h
  | none =>
    obtain ⟨c1, hadd, _, _, hl1⟩ := cache_add_absent g.mainCache key ⟨b⟩ hvalid hcap hmiss
    have hfn : Group.loadFn key { g with calls := g.calls ++ [Call.cacheGet key] } =
        some ((some ⟨b⟩, none),
          { g with
            mainCache := c1
            calls := g.calls ++ [Call.cacheGet key] ++ [Call.pickPeer key] ++
              [Call.peerGet { Group := g.name, Key := key }] ++ [Call.getter key] ++
              [Call.cacheAdd key] }) := by
      simp [Group.loadFn, hpeers, hpick, Group.getFromPeer, hfetch, Group.getLocally, hsrc,
        cloneBytes_eq, Group.populateCache, hadd]
    obtain ⟨ld, _, h2⟩ :=
      load_of_loadFn { g with calls := g.calls ++ [Call.cacheGet key] } _ key _ _ hidle hfn
    refine ⟨_, _, h2, Or.inl rfl, ?_, by simp, fun _ => hl1⟩
    simp [List.count_cons]

theorem Get_peer_failure_falls_back_witness :
    ∃ g, setup "scores" 1 (sourceOf [7]) (some (pickerOf (failingPeer "down"))) = some g ∧
      ∃ r g1, g.Get "x" = some (r, g1) ∧ (r.2 = none ∨ r.2 = (none : Option Error)) ∧
        (g1.calls.drop g.calls.length).count (Call.getter "x") = 1 ∧
        g1.calls = g.calls ++ [Call.cacheGet "x", Call.pickPeer "x",
            Call.peerGet { Group := g.name, Key := "x" }, Call.getter "x"] ++
          (match (none : Option Error) with
            | none => [Call.cacheAdd "x"]
            | some _ => []) ∧
        ((none : Option Error) = none → g1.mainCache.lookup "x" = some ⟨[7]⟩) :=
  ⟨_, rfl, Get_peer_failure_falls_back _ "x" (pickerOf (failingPeer "down"))
    (failingPeer "down") { Value := [] } "down" [7] none (by decide) (by rfl) (by decide)
    (by trivial) (by rfl) (by rfl) (by rfl) (by rfl) (by rfl)⟩

/-- C1, the code at a failing input. On the group `NewGroup("scores", 1, getter)` whose
callback returns the byte `7`, the load of `Get("x")` succeeds through the callback, and on
the same group with a picker whose peer returns the byte `9` it succeeds through the peer;
in both cases `Get("x")` returns the zero `ByteView`, of empty contents, with a nil error:
`load` tests `err != nil` where `err == nil` is meant and falls through to the bare
`return` of the named result `vale`. -/
theorem Get_miss_returns_zero_view :
    (setup "scores" 1 (sourceOf [7]) none).bind
        (fun g => (g.Get "x").map Prod.fst) = some (⟨[]⟩, none) ∧
    (setup "scores" 1 (sourceOf [7]) (some (pickerOf (peerReturning [9])))).bind
        (fun g => (g.Get "x").map Prod.fst) = some (⟨[]⟩, none) := by
  decide

/-- C2, the code at a failing input. On the group `NewGroup("scores", 1, getter)` with no
picker whose callback fails with the error "boom", `Get("x")` returns the zero `ByteView`
with a nil error: `load` tests `err != nil` and then returns `viewi.(ByteView), nil`. -/
theorem Get_source_error_swallowed :
    (failingSource "boom").Get "x" = ([], some "boom") ∧
    (setup "scores" 1 (failingSource "boom") none).bind
        (fun g => (g.Get "x").map Prod.fst) = some (⟨[]⟩, none) := by
  decide

end rainCache

/-! ## The LFU cache: updates, the representation invariant and failures -/

namespace GoMap

variable {K V : Type} [DecidableEq K]

theorem keys_set_congr (m : GoMap K V) (k : K) (v v1 : V) :
    keys (set m k v) = keys (set m k v1) := by
  induction m with
  | nil => rfl
  | cons p t ih =>
    obtain ⟨k1, w⟩ := p
    by_cases h : k1 = k
    · simp [set, keys, h]
    · simp only [keys] at ih
      simp [set, keys, h, ih]

end GoMap

namespace lfu

variable {V : Type}

theorem increaseFreq_freqMap (c c1 : Cache V) (e : Object V) (h : c.bucket e.freq ≠ [])
    (h1 : c.increaseFreq e = some c1) :
    c1.freqMap = GoMap.set (GoMap.set c.freqMap e.freq (listRemove (c.bucket e.freq) e))
      (e.freq + 1) ({ e with freq := e.freq + 1 } :: c.bucket (e.freq + 1)) := by
  obtain ⟨l, hg, hb⟩ : ∃ l, c.freqMap.get? e.freq = some l ∧ c.bucket e.freq = l :=
    ⟨_, get?_of_bucket_ne_nil c e.freq h, rfl⟩
  have h3 : e.freq ≠ e.freq + 1 := by omega
  simp only [Cache.increaseFreq, hg, Option.some.injEq] at h1
  rw [← h1, hb]
  split_ifs <;>
    simp only [Cache.insertMap, Cache.bucket, GoMap.get?_set_ne _ _ h3]

theorem storing_of_key_ne (k : String) (v : V) (l : List (Object V))
    (h : ∀ o ∈ l, o.key ≠ k) : l.map (Object.storing k v) = l := by
  induction l with
  | nil => rfl
  | cons a t ih =>
    have ha : a.key ≠ k := h a (by simp)
    rw [List.map_cons, ih (fun o ho => h o (List.mem_cons_of_mem _ ho))]
    simp [Object.storing, ha]

/-- C11. Update counts as an access. In a state reached from `New` with a capacity of at
least one, for a key `k` that is present, `Get(k)` and `Add(k, v1)` both return, and the
state after `Add(k, v1)` is the state after `Get(k)` with `v1` stored in the entry of `k`:
`len`, `cap` and `minFreq` are equal, the two maps have the same keys, and every lookup in
`objectMap` and in `freqMap` gives the same entries, but for the value `v1` in the entry of
`k`. No entry is evicted and `len` is the one before the call, also when `len == cap`. -/
theorem lfu_update_is_access (cap : Int) (hcap : 1 ≤ cap) (ops : List (Op V)) (c : Cache V)
    (hrun : (New cap : Cache V).run ops = some c) (k : String) (v1 : V) (ob : Object V)
    (hget : c.objectMap.get? k = some ob) :
    ∃ c1 c2, c.Get k = some ((some ob.value, true), c1) ∧ c.Add k v1 = some c2 ∧
      c2.len = c1.len ∧ c2.cap = c1.cap ∧ c2.minFreq = c1.minFreq ∧
      GoMap.keys c2.objectMap = GoMap.keys c1.objectMap ∧
      GoMap.keys c2.freqMap = GoMap.keys c1.freqMap ∧
      (∀ x, c2.objectMap.get? x = (c1.objectMap.get? x).map (Object.storing k v1)) ∧
      (∀ f, c2.freqMap.get? f = (c1.freqMap.get? f).map (List.map (Object.storing k v1))) ∧
      c2.len = c.len ∧ GoMap.keys c2.objectMap = GoMap.keys c.objectMap := by
  obtain ⟨hinv, _, _⟩ := inv_of_run cap (by omega) ops c hrun
  obtain ⟨c1, hG, hG2, _⟩ := Get_hit ops c k ob hinv hget
  obtain ⟨c2, hA, hA2, _⟩ := Add_hit ops c k v1 ob hinv hget
  obtain ⟨hkey, _, hmem⟩ := hinv.obj k ob hget
  subst hkey
  have hne : c.bucket ob.freq ≠ [] := List.ne_nil_of_mem hmem
  obtain ⟨d1, e1, l1, p1, om1, _, m1⟩ := increaseFreq_spec c ob hne
  obtain ⟨d2, e2, l2, p2, om2, _, m2⟩ := increaseFreq_spec c { ob with value := v1 } hne
  rw [hG2] at e1
  rw [hA2] at e2
  cases e1
  cases e2
  have fm1 := increaseFreq_freqMap c c1 ob hne hG2
  have fm2 := increaseFreq_freqMap c c2 { ob with value := v1 } hne hA2
  dsimp only at om2 m2 fm2
  have hrm : listRemove (c.bucket ob.freq) { ob with value := v1 } =
      listRemove (c.bucket ob.freq) ob := rfl
  rw [hrm] at fm2 m2
  have F1 : ∀ g o, o ∈ c.bucket g → o.key = ob.key → g = ob.freq := by
    intro g o ho hk
    obtain ⟨hf, hg⟩ := hinv.bkt g o ho
    rw [hk, hget] at hg
    cases hg
    exact hf.symm
  have F3 : ∀ o ∈ listRemove (c.bucket ob.freq) ob, o.key ≠ ob.key :=
    fun o ho => key_ne_of_mem_listRemove _ _ o (keys_ne_of_order ops _ (hinv.order _)) ho
  have hst : Object.storing ob.key v1 { ob with freq := ob.freq + 1 } =
      { ob with value := v1, freq := ob.freq + 1 } := by
    simp [Object.storing]
  refine ⟨c1, c2, hG, hA, by rw [l1, l2], by rw [p1, p2], by rw [m1, m2], ?_, ?_, ?_, ?_, l2,
    ?_⟩
  · rw [om1, om2]
    exact GoMap.keys_set_congr _ _ _ _
  · rw [fm1, fm2]
    exact GoMap.keys_set_congr _ _ _ _
  · intro x
    rw [om1, om2]
    by_cases hx : ob.key = x
    · subst hx
      rw [GoMap.get?_set_self, GoMap.get?_set_self, Option.map_some', hst]
    · rw [GoMap.get?_set_ne _ _ hx, GoMap.get?_set_ne _ _ hx]
      cases ho : c.objectMap.get? x with
      | none => rfl
      | some o =>
        have := (hinv.obj x o ho).1
        have hk : o.key ≠ ob.key := by
          rw [this]
          exact fun e => hx e.symm
        simp [Object.storing, hk]
  · intro f
    rw [fm1, fm2]
    by_cases hf1 : ob.freq + 1 = f
    · subst hf1
      rw [GoMap.get?_set_self, GoMap.get?_set_self, Option.map_some', List.map_cons, hst]
      rw [storing_of_key_ne]
      intro o ho e
      have := F1 _ o ho e
      omega
    · rw [GoMap.get?_set_ne _ _ hf1, GoMap.get?_set_ne _ _ hf1]
      by_cases hf2 : ob.freq = f
      · subst hf2
        rw [GoMap.get?_set_self, Option.map_some', storing_of_key_ne _ _ _ F3]
      · rw [GoMap.get?_set_ne _ _ hf2]
        cases hl : c.freqMap.get? f with
        | none => rfl
        | some l =>
          rw [Option.map_some', storing_of_key_ne]
          intro o ho e
          have hb : c.bucket f = l := bucket_eq_of_get? c f l hl
          rw [← hb] at ho
          exact hf2 (F1 f o ho e).symm
  · rw [om2]
    exact GoMap.keys_set_of_mem _ _ _ ob hget

theorem lfu_update_is_access_witness :
    ∃ c : Cache Nat, (New 2 : Cache Nat).run [Op.add "A" 1, Op.add "B" 2] = some c ∧
      ∃ c1 c2, c.Get "A" = some ((some 1, true), c1) ∧ c.Add "A" 5 = some c2 ∧
        c2.len = c1.len ∧ c2.cap = c1.cap ∧ c2.minFreq = c1.minFreq ∧
        GoMap.keys c2.objectMap = GoMap.keys c1.objectMap ∧
        GoMap.keys c2.freqMap = GoMap.keys c1.freqMap ∧
        (∀ x, c2.objectMap.get? x = (c1.objectMap.get? x).map (Object.storing "A" 5)) ∧
        (∀ f, c2.freqMap.get? f =
          (c1.freqMap.get? f).map (List.map (Object.storing "A" 5))) ∧
        c2.len = c.len ∧ GoMap.keys c2.objectMap = GoMap.keys c.objectMap :=
  ⟨_, rfl, lfu_update_is_access 2 (by decide) [Op.add "A" 1, Op.add "B" 2] _ (by rfl) "A" 5
    { key := "A", value := 1, freq := 1 } (by rfl)⟩

end lfu

namespace lfu

variable {V : Type}

/-- C12. Representation invariant. For a cache created by `New` with a capacity of at least
one and every history of `Add` and `Get` calls, after the first `n` calls, for every `n`,
the calls have returned and: a key is a key of `objectMap` exactly when an entry of that
key is in a bucket; the entry `objectMap` holds for a key has that key and a frequency of
at least one, is in the bucket of its frequency, and every entry of that key in any bucket
is this entry, in this bucket; every entry of the bucket `freqMap[f]` has frequency `f`,
and no bucket holds two entries of one key; and when `len > 0` the bucket of `minFreq` is
not empty and no bucket of a smaller frequency holds an entry. -/
theorem lfu_representation_invariant (cap : Int) (hcap : 1 ≤ cap) (ops : List (Op V))
    (n : Nat) :
    ∃ c, (New cap : Cache V).run (ops.take n) = some c ∧
      (∀ k, (∃ ob, c.objectMap.get? k = some ob) ↔ ∃ f o, o ∈ c.bucket f ∧ o.key = k) ∧
      (∀ k ob, c.objectMap.get? k = some ob →
        ob.key = k ∧ 1 ≤ ob.freq ∧ ob ∈ c.bucket ob.freq ∧
        ∀ g o, o ∈ c.bucket g → o.key = k → g = ob.freq ∧ o = ob) ∧
      (∀ f o, o ∈ c.bucket f → o.freq = f ∧ 1 ≤ f) ∧
      (∀ f, ((c.bucket f).map (fun o => o.key)).Nodup) ∧
      (0 < c.len → c.bucket c.minFreq ≠ [] ∧ ∀ g, c.bucket g ≠ [] → c.minFreq ≤ g) := by
  obtain ⟨c, h1, hinv, _, _⟩ := run_inv (V := V) cap (by omega) (ops.take n)
  have huniq : ∀ k ob, c.objectMap.get? k = some ob →
      ∀ g o, o ∈ c.bucket g → o.key = k → g = ob.freq ∧ o = ob := by
    intro k ob hk g o ho hok
    obtain ⟨hf, hg⟩ := hinv.bkt g o ho
    rw [hok, hk] at hg
    cases hg
    exact ⟨hf.symm, rfl⟩
  refine ⟨c, h1, ?_, ?_, ?_, ?_, ?_⟩
  · intro k
    constructor
    · rintro ⟨ob, hk⟩
      obtain ⟨h2, _, h4⟩ := hinv.obj k ob hk
      exact ⟨ob.freq, ob, h4, h2⟩
    · rintro ⟨f, o, ho, hok⟩
      exact ⟨o, by rw [← hok]; exact (hinv.bkt f o ho).2⟩
  · intro k ob hk
    obtain ⟨h2, h3, h4⟩ := hinv.obj k ob hk
    exact ⟨h2, h3, h4, huniq k ob hk⟩
  · intro f o ho
    obtain ⟨hf, hg⟩ := hinv.bkt f o ho
    refine ⟨hf, ?_⟩
    rw [← hf]
    exact (hinv.obj _ o hg).2.1
  · intro f
    rw [List.Nodup, List.pairwise_map]
    exact keys_ne_of_order (ops.take n) _ (hinv.order f)
  · intro hpos
    obtain ⟨hm1, hm2⟩ := hinv.min hpos
    refine ⟨hm1, ?_⟩
    intro g hg
    obtain ⟨o, ho⟩ := List.exists_mem_of_ne_nil _ hg
    obtain ⟨hf, hget⟩ := hinv.bkt g o ho
    rw [← hf]
    exact hm2 _ o hget

theorem lfu_representation_invariant_witness :
    (1 : Int) ≤ 2 ∧
    ∃ c, (New 2 : Cache Nat).run
        ([Op.add "A" 1, Op.add "B" 2, Op.get "A", Op.add "C" 3].take 4) = some c ∧
      (∀ k, (∃ ob, c.objectMap.get? k = some ob) ↔ ∃ f o, o ∈ c.bucket f ∧ o.key = k) ∧
      (∀ k ob, c.objectMap.get? k = some ob →
        ob.key = k ∧ 1 ≤ ob.freq ∧ ob ∈ c.bucket ob.freq ∧
        ∀ g o, o ∈ c.bucket g → o.key = k → g = ob.freq ∧ o = ob) ∧
      (∀ f o, o ∈ c.bucket f → o.freq = f ∧ 1 ≤ f) ∧
      (∀ f, ((c.bucket f).map (fun o => o.key)).Nodup) ∧
      (0 < c.len → c.bucket c.minFreq ≠ [] ∧ ∀ g, c.bucket g ≠ [] → c.minFreq ≤ g) :=
  ⟨by decide, lfu_representation_invariant 2 (by decide) _ 4⟩

/-- C19. No call hits a missing or empty bucket. For a cache created by `New` with a
capacity of at least one and every history of `Add` and `Get` calls: the history returns,
and in the state it leaves every further call returns; when `len == cap` the bucket
`freqMap[minFreq]` exists and has a back element, and `eliminate` returns; and for every
present key the bucket `freqMap[ob.freq]` of its entry exists and holds the entry, and
`increaseFreq` returns on it, with its value or with any updated value. -/
theorem lfu_no_missing_bucket (cap : Int) (hcap : 1 ≤ cap) (ops : List (Op V)) :
    ∃ c, (New cap : Cache V).run ops = some c ∧
      (∀ op, ∃ c1, c.step op = some c1) ∧
      (c.len = c.cap →
        ∃ l ev c1, c.freqMap.get? c.minFreq = some l ∧ l.getLast? = some ev ∧
          c.eliminate = some c1) ∧
      (∀ k ob, c.objectMap.get? k = some ob →
        ∃ l, c.freqMap.get? ob.freq = some l ∧ ob ∈ l ∧
          (∃ c1, c.increaseFreq ob = some c1) ∧
          ∀ v, ∃ c1, c.increaseFreq { ob with value := v } = some c1) := by
  obtain ⟨c, h1, hinv, hc, _⟩ := run_inv (V := V) cap (by omega) ops
  have hcap0 : c.cap ≠ 0 := by omega
  refine ⟨c, h1, ?_, ?_, ?_⟩
  · intro op
    obtain ⟨c1, h2, _⟩ := inv_step ops c op hinv hcap0
    exact ⟨c1, h2⟩
  · intro hfull
    have hpos : 0 < c.len := by omega
    have hne := (hinv.min hpos).1
    obtain ⟨c1, ev, h2, h3, _⟩ := eliminate_spec c hne
    exact ⟨c.bucket c.minFreq, ev, c1, get?_of_bucket_ne_nil c _ hne, h3, h2⟩
  · intro k ob hk
    obtain ⟨_, _, hmem⟩ := hinv.obj k ob hk
    have hne : c.bucket ob.freq ≠ [] := List.ne_nil_of_mem hmem
    refine ⟨c.bucket ob.freq, get?_of_bucket_ne_nil c _ hne, hmem, ?_, ?_⟩
    · obtain ⟨c1, h2, _⟩ := increaseFreq_spec c ob hne
      exact ⟨c1, h2⟩
    · intro v
      obtain ⟨c1, h2, _⟩ := increaseFreq_spec c { ob with value := v } hne
      exact ⟨c1, h2⟩

theorem lfu_no_missing_bucket_witness :
    (1 : Int) ≤ 1 ∧
    ∃ c, (New 1 : Cache Nat).run [Op.add "A" 1, Op.get "A", Op.add "B" 2] = some c ∧
      (∀ op, ∃ c1, c.step op = some c1) ∧
      (c.len = c.cap →
        ∃ l ev c1, c.freqMap.get? c.minFreq = some l ∧ l.getLast? = some ev ∧
          c.eliminate = some c1) ∧
      (∀ k ob, c.objectMap.get? k = some ob →
        ∃ l, c.freqMap.get? ob.freq = some l ∧ ob ∈ l ∧
          (∃ c1, c.increaseFreq ob = some c1) ∧
          ∀ v, ∃ c1, c.increaseFreq { ob with value := v } = some c1) :=
  ⟨by decide, lfu_no_missing_bucket 1 (by decide) _⟩

theorem run_gets_New_zero (gets : List String) :
    (New 0 : Cache V).run (gets.map Op.get) = some (New 0) := by
  induction gets with
  | nil => rfl
  | cons g t ih =>
    simp only [List.map_cons, Cache.run]
    have : (New 0 : Cache V).step (Op.get g) = some (New 0) := rfl
    rw [this]
    exact ih

end lfu

namespace rainCache

/-- C20. Zero capacity cannot store anything. On the cache `New(0, _)`, also after any
number of `Get` calls, `len == cap`, `minFreq` is `math.MaxInt` and `freqMap` has no bucket
for it, so `eliminate` panics and `Add` of any key and value panics and inserts nothing;
the first `add` of the guarded cache of a group created with `cacheBytes = 0` panics. -/
theorem lfu_zero_capacity {V : Type} (k : String) (v : V) (gets : List String)
    (bv : ByteView) (groups : GoMap String Group) (name : String) (getter : Getter) :
    (lfu.New 0 : lfu.Cache V).len = (lfu.New 0 : lfu.Cache V).cap ∧
    (lfu.New 0 : lfu.Cache V).minFreq = lfu.maxInt ∧
    (lfu.New 0 : lfu.Cache V).freqMap.get? lfu.maxInt = none ∧
    (lfu.New 0 : lfu.Cache V).eliminate = none ∧
    (lfu.New 0 : lfu.Cache V).Add k v = none ∧
    (lfu.New 0 : lfu.Cache V).run (gets.map lfu.Op.get ++ [lfu.Op.add k v]) = none ∧
    cache.add { lfu := none, cacheBytes := 0 } k bv = none ∧
    (NewGroup groups name 0 (some getter)).map (fun p => p.1.mainCache.add k bv) =
      some none := by
  refine ⟨rfl, rfl, rfl, rfl, rfl, ?_, rfl, rfl⟩
  rw [lfu.run_append, lfu.run_gets_New_zero]
  rfl

end rainCache

/-! ## The consistent-hash ring: the binary search -/

namespace consistenthash

theorem searchLoop_spec (f : Nat → Bool) (n : Nat)
    (hmono : ∀ a b, a ≤ b → b < n → f a = true → f b = true) (fuel : Nat) :
    ∀ i j, i ≤ j → j ≤ n → j - i ≤ fuel → (∀ k, k < i → f k = false) →
      (j < n → f j = true) →
      searchLoop f fuel i j ≤ n ∧ (∀ k, k < searchLoop f fuel i j → f k = false) ∧
        (searchLoop f fuel i j < n → f (searchLoop f fuel i j) = true) := by
  induction fuel with
  | zero =>
    intro i j hij hjn hfuel hlo hhi
    have : i = j := by omega
    subst this
    exact ⟨hjn, hlo, hhi⟩
  | succ fuel ih =>
    intro i j hij hjn hfuel hlo hhi
    unfold searchLoop
    by_cases hlt : i < j
    · rw [if_pos hlt]
      dsimp only
      have h1 : i ≤ (i + j) / 2 := by omega
      have h2 : (i + j) / 2 < j := by omega
      cases hf : f ((i + j) / 2) with
      | false =>
        simp only [Bool.not_false, if_true]
        refine ih _ _ (by omega) hjn (by omega) ?_ hhi
        intro k hk
        cases hfk : f k with
        | false => rfl
        | true =>
          have := hmono k ((i + j) / 2) (by omega) (by omega) hfk
          rw [hf] at this
          cases this
      | true =>
        simp only [Bool.not_true, Bool.false_eq_true, if_false]
        exact ih _ _ h1 (by omega) (by omega) hlo (fun _ => hf)
    · rw [if_neg hlt]
      have : i = j := by omega
      subst this
      exact ⟨hjn, hlo, hhi⟩

theorem Search_spec (f : Nat → Bool) (n : Nat)
    (hmono : ∀ a b, a ≤ b → b < n → f a = true → f b = true) :
    Search n f ≤ n ∧ (∀ k, k < Search n f → f k = false) ∧
      (Search n f < n → f (Search n f) = true) := by
  unfold Search
  refine searchLoop_spec f n hmono n 0 n (Nat.zero_le _) (Nat.le_refl _) (by omega) ?_ ?_
  · intro k hk
    omega
  · intro h
    omega

theorem Selects_unique (keys : List Int) (hash p q : Int) (hp : Selects keys hash p)
    (hq : Selects keys hash q) : p = q := by
  obtain ⟨hp1, hp2⟩ := hp
  obtain ⟨hq1, hq2⟩ := hq
  rcases hp2 with ⟨a1, a2⟩ | ⟨a1, a2⟩ <;> rcases hq2 with ⟨b1, b2⟩ | ⟨b1, b2⟩
  · exact le_antisymm (a2 q hq1 b1) (b2 p hp1 a1)
  · have := b1 p hp1
    omega
  · have := a1 q hq1
    omega
  · exact le_antisymm (a2 q hq1) (b2 p hp1)

theorem Get_selects (m : Map) (key : String) (hs : m.keys.Sorted (fun a b => a ≤ b))
    (hne : m.keys ≠ []) :
    ∃ p, Selects m.keys (m.hashInt (bytesOf key)) p ∧
      m.Get key = some (match m.hashMap.get? p with
        | some id => id
        | none => "") := by
  have hlen : 0 < m.keys.length := List.length_pos.2 hne
  have hget : ∀ i (hi : i < m.keys.length), m.keys.getD i 0 = m.keys.get ⟨i, hi⟩ := by
    intro i hi
    simp [List.getD_eq_getElem?_getD, List.getElem?_eq_getElem hi]
  have hmono : ∀ a b, a ≤ b → b < m.keys.length →
      decide (m.keys.getD a 0 ≥ m.hashInt (bytesOf key)) = true →
      decide (m.keys.getD b 0 ≥ m.hashInt (bytesOf key)) = true := by
    intro a b hab hb ha
    rw [decide_eq_true_eq] at ha ⊢
    rw [hget a (by omega)] at ha
    rw [hget b hb]
    have : m.keys.get ⟨a, by omega⟩ ≤ m.keys.get ⟨b, hb⟩ :=
      hs.rel_get_of_le (a := ⟨a, by omega⟩) (b := ⟨b, hb⟩) hab
    omega
  obtain ⟨h1, h2, h3⟩ := Search_spec _ m.keys.length hmono
  generalize hr : Search m.keys.length
    (fun i => decide (m.keys.getD i 0 ≥ m.hashInt (bytesOf key))) = r at h1 h2 h3
  have hGet : ∀ (i : Nat) (hi : i < m.keys.length), r % m.keys.length = i →
      m.Get key = some (match m.hashMap.get? (m.keys.get ⟨i, hi⟩) with
        | some id => id
        | none => "") := by
    intro i hi hri
    have hl : ¬ m.keys.length = 0 := by omega
    have hidx : m.keys[r % m.keys.length]? = some (m.keys.get ⟨i, hi⟩) := by
      rw [hri, List.getElem?_eq_getElem hi]
      rfl
    simp only [Map.Get, if_neg hl, hr, hidx]
    cases m.hashMap.get? (m.keys.get ⟨i, hi⟩) <;> rfl
  have hall : ∀ q ∈ m.keys, ∃ k, ∃ hk : k < m.keys.length, m.keys.get ⟨k, hk⟩ = q := by
    intro q hq
    obtain ⟨⟨k, hk⟩, hkq⟩ := List.get_of_mem hq
    exact ⟨k, hk, hkq⟩
  by_cases hrn : r < m.keys.length
  · refine ⟨m.keys.get ⟨r, hrn⟩, ⟨List.get_mem _ _ _, Or.inl ⟨?_, ?_⟩⟩,
      hGet r hrn (Nat.mod_eq_of_lt hrn)⟩
    · have := h3 hrn
      rw [decide_eq_true_eq, hget r hrn] at this
      exact this
    · intro q hq hhq
      obtain ⟨k, hk, hkq⟩ := hall q hq
      have hrk : r ≤ k := by
        by_contra hc
        have := h2 k (by omega)
        rw [decide_eq_false_iff_not, hget k hk, hkq] at this
        exact this hhq
      rw [← hkq]
      exact hs.rel_get_of_le (a := ⟨r, hrn⟩) (b := ⟨k, hk⟩) hrk
  · have hrn2 : r = m.keys.length := by omega
    refine ⟨m.keys.get ⟨0, hlen⟩, ⟨List.get_mem _ _ _, Or.inr ⟨?_, ?_⟩⟩,
      hGet 0 hlen (by rw [hrn2]; exact Nat.mod_self _)⟩
    · intro q hq
      obtain ⟨k, hk, hkq⟩ := hall q hq
      have := h2 k (by omega)
      rw [decide_eq_false_iff_not, hget k hk, hkq] at this
      omega
    · intro q hq
      obtain ⟨k, hk, hkq⟩ := hall q hq
      rw [← hkq]
      exact hs.rel_get_of_le (a := ⟨0, hlen⟩) (b := ⟨k, hk⟩) (Nat.zero_le _)

end consistenthash

/-! ## The consistent-hash ring: construction -/

namespace consistenthash

theorem hashInt_congr (m m1 : Map) (h : m1.hash = m.hash) (data : List UInt8) :
    m1.hashInt data = m.hashInt data := by
  simp [Map.hashInt, h]

theorem pointsOf_congr (m m1 : Map) (h : m1.hash = m.hash) (hr : m1.replicas = m.replicas)
    (ids : List String) : m1.pointsOf ids = m.pointsOf ids := by
  have : m1.hashInt = m.hashInt := funext (hashInt_congr m m1 h)
  simp [Map.pointsOf, hr, this]

theorem pointsOf_append (m : Map) (xs ys : List String) :
    m.pointsOf (xs ++ ys) = m.pointsOf xs ++ m.pointsOf ys := by
  simp [Map.pointsOf, List.flatMap_append]

theorem insertPoints_append (hm : GoMap Int String) (xs ys : List (Int × String)) :
    insertPoints hm (xs ++ ys) = insertPoints (insertPoints hm xs) ys := by
  simp [insertPoints, List.foldl_append]

theorem addReplicas_loop (key : String) (l : List Nat) (m : Map) :
    let m1 := l.foldl (fun (m1 : Map) i =>
      { m1 with
        keys := m1.keys ++ [m1.hashInt (bytesOf (Itoa i ++ key))]
        hashMap := GoMap.set m1.hashMap (m1.hashInt (bytesOf (Itoa i ++ key))) key }) m
    m1.hash = m.hash ∧ m1.replicas = m.replicas ∧
      m1.keys = m.keys ++ l.map (fun i => m.hashInt (bytesOf (Itoa i ++ key))) ∧
      m1.hashMap = insertPoints m.hashMap
        (l.map (fun i => (m.hashInt (bytesOf (Itoa i ++ key)), key))) := by
  induction l generalizing m with
  | nil => simp [insertPoints]
  | cons i t ih =>
    simp only [List.foldl_cons]
    obtain ⟨h1, h2, h3, h4⟩ := ih
      { m with
        keys := m.keys ++ [m.hashInt (bytesOf (Itoa i ++ key))]
        hashMap := GoMap.set m.hashMap (m.hashInt (bytesOf (Itoa i ++ key))) key }
    have hh : ∀ (m2 : Map), m2.hash = m.hash → m2.hashInt = m.hashInt :=
      fun m2 e => funext (hashInt_congr m m2 e)
    have e := hh
      { m with
        keys := m.keys ++ [m.hashInt (bytesOf (Itoa i ++ key))]
        hashMap := GoMap.set m.hashMap (m.hashInt (bytesOf (Itoa i ++ key))) key } rfl
    rw [e] at h3 h4
    refine ⟨h1, h2, ?_, ?_⟩
    · rw [h3]
      simp
    · rw [h4]
      simp [insertPoints]

theorem addReplicas_spec (m : Map) (key : String) :
    (m.addReplicas key).hash = m.hash ∧ (m.addReplicas key).replicas = m.replicas ∧
      (m.addReplicas key).keys = m.keys ++ (m.pointsOf [key]).map Prod.fst ∧
      (m.addReplicas key).hashMap = insertPoints m.hashMap (m.pointsOf [key]) := by
  obtain ⟨h1, h2, h3, h4⟩ := addReplicas_loop key (List.range m.replicas.toNat) m
  refine ⟨h1, h2, ?_, ?_⟩
  · rw [Map.addReplicas, h3]
    simp [Map.pointsOf, Function.comp_def]
  · rw [Map.addReplicas, h4]
    simp [Map.pointsOf]

theorem addKeys_loop (ids : List String) (m : Map) :
    let m1 := ids.foldl (fun (m2 : Map) key => m2.addReplicas key) m
    m1.hash = m.hash ∧ m1.replicas = m.replicas ∧
      m1.keys = m.keys ++ (m.pointsOf ids).map Prod.fst ∧
      m1.hashMap = insertPoints m.hashMap (m.pointsOf ids) := by
  induction ids generalizing m with
  | nil => simp [Map.pointsOf, insertPoints]
  | cons id t ih =>
    simp only [List.foldl_cons]
    obtain ⟨a1, a2, a3, a4⟩ := addReplicas_spec m id
    obtain ⟨h1, h2, h3, h4⟩ := ih (m.addReplicas id)
    have hp := pointsOf_congr m (m.addReplicas id) a1 a2 t
    have hc : m.pointsOf (id :: t) = m.pointsOf [id] ++ m.pointsOf t :=
      pointsOf_append m [id] t
    refine ⟨h1.trans a1, h2.trans a2, ?_, ?_⟩
    · rw [h3, a3, hp, hc]
      simp
    · rw [h4, a4, hp, hc, insertPoints_append]

theorem Add_spec (m : Map) (ids : List String) :
    (m.Add ids).hash = m.hash ∧ (m.Add ids).replicas = m.replicas ∧
      (m.Add ids).keys = sortInts (m.keys ++ (m.pointsOf ids).map Prod.fst) ∧
      (m.Add ids).hashMap = insertPoints m.hashMap (m.pointsOf ids) := by
  obtain ⟨h1, h2, h3, h4⟩ := addKeys_loop ids m
  refine ⟨h1, h2, ?_, h4⟩
  show sortInts _ = _
  rw [h3]

theorem sortInts_sorted (l : List Int) : (sortInts l).Sorted (fun a b => a ≤ b) :=
  List.sorted_insertionSort _ l

theorem sortInts_perm (l : List Int) : (sortInts l).Perm l :=
  List.perm_insertionSort _ l

theorem addAll_spec (calls : List (List String)) (m : Map)
    (hs : m.keys.Sorted (fun a b => a ≤ b)) :
    (m.addAll calls).hash = m.hash ∧ (m.addAll calls).replicas = m.replicas ∧
      (m.addAll calls).keys.Sorted (fun a b => a ≤ b) ∧
      (m.addAll calls).keys.Perm (m.keys ++ (m.pointsOf calls.flatten).map Prod.fst) ∧
      (m.addAll calls).hashMap = insertPoints m.hashMap (m.pointsOf calls.flatten) := by
  induction calls generalizing m with
  | nil => simp [Map.addAll, Map.pointsOf, insertPoints, hs]
  | cons ids t ih =>
    obtain ⟨a1, a2, a3, a4⟩ := Add_spec m ids
    have hs1 : (m.Add ids).keys.Sorted (fun a b => a ≤ b) := by
      rw [a3]
      exact sortInts_sorted _
    obtain ⟨h1, h2, h3, h4, h5⟩ := ih (m.Add ids) hs1
    have hp := pointsOf_congr m (m.Add ids) a1 a2 t.flatten
    have hc : m.pointsOf (ids :: t).flatten = m.pointsOf ids ++ m.pointsOf t.flatten := by
      rw [List.flatten_cons, pointsOf_append]
    have hfold : m.addAll (ids :: t) = (m.Add ids).addAll t := rfl
    rw [hfold]
    refine ⟨h1.trans a1, h2.trans a2, h3, ?_, ?_⟩
    · refine h4.trans ?_
      rw [hp, hc, a3, List.map_append, ← List.append_assoc]
      exact (sortInts_perm _).append_right _
    · rw [h5, a4, hp, hc, insertPoints_append]

theorem get?_insertPoints (pts : List (Int × String)) (hm : GoMap Int String) (h : Int) :
    GoMap.get? (insertPoints hm pts) h =
      match lastAt pts h with
      | some id => some id
      | none => GoMap.get? hm h := by
  induction pts using List.reverseRecOn with
  | nil => rfl
  | append_singleton pts p ih =>
    rw [insertPoints_append]
    have h1 : insertPoints (insertPoints hm pts) [p] =
        GoMap.set (insertPoints hm pts) p.1 p.2 := rfl
    rw [h1]
    by_cases hp : p.1 = h
    · subst hp
      rw [GoMap.get?_set_self]
      simp [lastAt]
    · rw [GoMap.get?_set_ne _ _ hp, ih]
      simp [lastAt, hp]

theorem lastAt_isSome_of_mem (pts : List (Int × String)) (h : Int)
    (hm : h ∈ pts.map Prod.fst) : ∃ id, lastAt pts h = some id := by
  obtain ⟨p, hp, hph⟩ := List.mem_map.1 hm
  cases hf : pts.reverse.find? (fun p => decide (p.1 = h)) with
  | none =>
    have := List.find?_eq_none.1 hf p (List.mem_reverse.2 hp)
    simp [hph] at this
  | some x => exact ⟨x.2, by simp [lastAt, hf]⟩

/-- The ring after `New` and a sequence of `Add` calls: `keys` is sorted and holds the hashes
of the points inserted, `hashMap` records for each hash the id of the last point inserted
with it. -/
theorem ring_spec (replicas : Int) (fn : Option Hash) (calls : List (List String)) :
    ((New replicas fn).addAll calls).keys.Sorted (fun a b => a ≤ b) ∧
    ((New replicas fn).addAll calls).keys.Perm
      (((New replicas fn).pointsOf calls.flatten).map Prod.fst) ∧
    ∀ h, GoMap.get? ((New replicas fn).addAll calls).hashMap h =
      lastAt ((New replicas fn).pointsOf calls.flatten) h := by
  obtain ⟨_, _, h3, h4, h5⟩ := addAll_spec calls (New replicas fn) List.sorted_nil
  refine ⟨h3, h4, ?_⟩
  intro h
  rw [h5, get?_insertPoints]
  cases lastAt ((New replicas fn).pointsOf calls.flatten) h <;> rfl

end consistenthash

/-! ## The consistent-hash ring: lookup, the empty ring and collisions -/

namespace consistenthash

theorem Get_ring (replicas : Int) (fn : Option Hash) (calls : List (List String))
    (key : String) (p : Int)
    (hsel : Selects ((New replicas fn).addAll calls).keys
      (((New replicas fn).addAll calls).hashInt (bytesOf key)) p) :
    ∃ id, lastAt ((New replicas fn).pointsOf calls.flatten) p = some id ∧
      GoMap.get? ((New replicas fn).addAll calls).hashMap p = some id ∧
      ((New replicas fn).addAll calls).Get key = some id := by
  obtain ⟨hs, hperm, hmap⟩ := ring_spec replicas fn calls
  have hne : ((New replicas fn).addAll calls).keys ≠ [] := List.ne_nil_of_mem hsel.1
  obtain ⟨p1, hp1, hget⟩ := Get_selects ((New replicas fn).addAll calls) key hs hne
  have hpp : p1 = p := Selects_unique _ _ _ _ hp1 hsel
  subst hpp
  obtain ⟨id, hid⟩ := lastAt_isSome_of_mem _ p1 ((hperm.mem_iff).1 hsel.1)
  refine ⟨id, hid, by rw [hmap, hid], ?_⟩
  rw [hget, hmap, hid]

/-- C13. Ring lookup. For a ring built by `New` and any `Add` calls, with any hash function,
that has at least one point, and every key: `Get(key)` returns, and it returns the peer
`hashMap` records for the point `p`, where `p` is the smallest point of `keys` that is at
least `hash(key)`, and the smallest point of `keys` when no point is at least `hash(key)`. -/
theorem ring_lookup (replicas : Int) (fn : Option Hash) (calls : List (List String))
    (key : String) (hne : ((New replicas fn).addAll calls).keys ≠ []) :
    ∃ p id, Selects ((New replicas fn).addAll calls).keys
        (((New replicas fn).addAll calls).hashInt (bytesOf key)) p ∧
      GoMap.get? ((New replicas fn).addAll calls).hashMap p = some id ∧
      ((New replicas fn).addAll calls).Get key = some id := by
  obtain ⟨hs, _, _⟩ := ring_spec replicas fn calls
  obtain ⟨p, hp, _⟩ := Get_selects ((New replicas fn).addAll calls) key hs hne
  obtain ⟨id, _, h2, h3⟩ := Get_ring replicas fn calls key p hp
  exact ⟨p, id, hp, h2, h3⟩

theorem ring_lookup_witness :
    ((New 2 none).addAll [["a", "b"]]).keys ≠ [] ∧
    ∃ p id, Selects ((New 2 none).addAll [["a", "b"]]).keys
        (((New 2 none).addAll [["a", "b"]]).hashInt (bytesOf "k")) p ∧
      GoMap.get? ((New 2 none).addAll [["a", "b"]]).hashMap p = some id ∧
      ((New 2 none).addAll [["a", "b"]]).Get "k" = some id :=
  ⟨by decide, ring_lookup 2 none [["a", "b"]] "k" (by decide)⟩

theorem pointsOf_eq_nil (m : Map) (ids : List String) (h : m.replicas ≤ 0 ∨ ids = []) :
    m.pointsOf ids = [] := by
  rcases h with h | h
  · have : m.replicas.toNat = 0 := Int.toNat_eq_zero.2 h
    simp [Map.pointsOf, this]
  · simp [Map.pointsOf, h]

/-- C14. Empty-ring sentinel. A ring with no points answers every `Get` with the empty
string and does not panic; the ring `New` returns, after any `Add` calls that had no ids or
any `Add` calls at all when `replicas <= 0`, has no points. `Get` writes no field of the
ring, so every call on it gives this result. -/
theorem ring_empty_sentinel (replicas : Int) (fn : Option Hash) (calls : List (List String))
    (key : String) (h : replicas ≤ 0 ∨ ∀ ids ∈ calls, ids = []) :
    ((New replicas fn).addAll calls).keys = [] ∧
    ((New replicas fn).addAll calls).Get key = some "" ∧
    ∀ m : Map, m.keys = [] → m.Get key = some "" := by
  have hgen : ∀ m : Map, m.keys = [] → m.Get key = some "" := by
    intro m hm
    simp [Map.Get, hm]
  obtain ⟨_, hperm, _⟩ := ring_spec replicas fn calls
  have hpts : (New replicas fn).pointsOf calls.flatten = [] := by
    refine pointsOf_eq_nil _ _ ?_
    rcases h with h | h
    · exact Or.inl h
    · right
      rw [List.flatten_eq_nil_iff]
      exact h
  rw [hpts] at hperm
  have hk : ((New replicas fn).addAll calls).keys = [] := List.Perm.eq_nil hperm
  exact ⟨hk, hgen _ hk, hgen⟩

theorem ring_empty_sentinel_witness :
    ((New 0 none).addAll [["a", "b"], ["c"]]).keys = [] ∧
    ((New 0 none).addAll [["a", "b"], ["c"]]).Get "k" = some "" ∧
    ∀ m : Map, m.keys = [] → m.Get "k" = some "" :=
  ring_empty_sentinel 0 none [["a", "b"], ["c"]] "k" (Or.inl (by decide))

theorem length_pointsOf (m : Map) (ids : List String) :
    (m.pointsOf ids).length = m.replicas.toNat * ids.length := by
  induction ids with
  | nil => simp [Map.pointsOf]
  | cons id t ih =>
    have hc : m.pointsOf (id :: t) = m.pointsOf [id] ++ m.pointsOf t :=
      pointsOf_append m [id] t
    rw [hc, List.length_append, ih]
    simp [Map.pointsOf, Nat.mul_succ, Nat.add_comm]

/-- C15. Ring construction. For a ring with `replicas >= 0` and every sequence of `Add`
calls, after one more `Add(ids...)` the slice `keys` is in increasing order, it is a
permutation of the hashes `hash(Itoa(i) + id)` for every id passed to `Add` so far, counted
as often as it was passed, and every `i` in `0 .. replicas - 1`, and it has
`replicas * len(ids)` more points than before the call. -/
theorem ring_construction (replicas : Int) (hr : 0 ≤ replicas) (fn : Option Hash)
    (calls : List (List String)) (ids : List String) :
    (((New replicas fn).addAll calls).Add ids).keys.Sorted (fun a b => a ≤ b) ∧
    (((New replicas fn).addAll calls).Add ids).keys.Perm
      ((calls.flatten ++ ids).flatMap (fun id =>
        (List.range replicas.toNat).map (fun i =>
          (New replicas fn).hashInt (bytesOf (Itoa i ++ id))))) ∧
    ((((New replicas fn).addAll calls).Add ids).keys.length : Int) =
      ((New replicas fn).addAll calls).keys.length + replicas * ids.length := by
  have hfold : ((New replicas fn).addAll calls).Add ids =
      (New replicas fn).addAll (calls ++ [ids]) := by
    simp [Map.addAll, List.foldl_append]
  obtain ⟨hs, hperm, _⟩ := ring_spec replicas fn (calls ++ [ids])
  obtain ⟨_, b2, _⟩ := addAll_spec calls (New replicas fn) List.sorted_nil
  obtain ⟨_, _, a3, _⟩ := Add_spec ((New replicas fn).addAll calls) ids
  refine ⟨by rw [hfold]; exact hs, ?_, ?_⟩
  · rw [hfold]
    refine hperm.trans ?_
    have : (calls ++ [ids]).flatten = calls.flatten ++ ids := by simp
    rw [this]
    have hrep : (New replicas fn).replicas = replicas := rfl
    simp [Map.pointsOf, List.map_flatMap, hrep, Function.comp_def]
  · have hl := (sortInts_perm (((New replicas fn).addAll calls).keys ++
      (((New replicas fn).addAll calls).pointsOf ids).map Prod.fst)).length_eq
    rw [← a3] at hl
    rw [hl, List.length_append, List.length_map, length_pointsOf, b2]
    have hrep : (New replicas fn).replicas = replicas := rfl
    rw [hrep]
    push_cast
    rw [Int.toNat_of_nonneg hr]

theorem ring_construction_witness :
    (0 : Int) ≤ 2 ∧
    (((New 2 none).addAll [["a", "b"]]).Add ["c"]).keys.Sorted (fun a b => a ≤ b) ∧
    (((New 2 none).addAll [["a", "b"]]).Add ["c"]).keys.Perm
      (([["a", "b"]].flatten ++ ["c"]).flatMap (fun id =>
        (List.range (2 : Int).toNat).map (fun i =>
          (New 2 none).hashInt (bytesOf (Itoa i ++ id))))) ∧
    ((((New 2 none).addAll [["a", "b"]]).Add ["c"]).keys.length : Int) =
      ((New 2 none).addAll [["a", "b"]]).keys.length + 2 * (["c"] : List String).length :=
  ⟨by decide, ring_construction 2 (by decide) none [["a", "b"]] ["c"]⟩

theorem lastAt_snoc (pts : List (Int × String)) (x : Int × String) (h : Int) :
    lastAt (pts ++ [x]) h = if x.1 = h then some x.2 else lastAt pts h := by
  by_cases hx : x.1 = h <;> simp [lastAt, hx]

theorem lastAt_of_last (pre post : List (Int × String)) (h : Int) (q : String)
    (hlast : ∀ x ∈ post, x.1 ≠ h) : lastAt (pre ++ (h, q) :: post) h = some q := by
  induction post using List.reverseRecOn with
  | nil => rw [lastAt_snoc, if_pos rfl]
  | append_singleton post x ih =>
    have h1 : pre ++ (h, q) :: (post ++ [x]) = (pre ++ (h, q) :: post) ++ [x] := by simp
    rw [h1, lastAt_snoc, if_neg (hlast x (by simp))]
    exact ih (fun y hy => hlast y (by simp [hy]))

theorem lastAt_filter_ne (pts : List (Int × String)) (h h1 : Int) (hne : h1 ≠ h) :
    lastAt (pts.filter (fun x => decide (x.1 ≠ h))) h1 = lastAt pts h1 := by
  induction pts using List.reverseRecOn with
  | nil => rfl
  | append_singleton pts x ih =>
    rw [List.filter_append, lastAt_snoc]
    by_cases hx : x.1 = h
    · have hx1 : ¬ x.1 = h1 := by
        rw [hx]
        exact fun e => hne e.symm
      have : List.filter (fun x => decide (x.1 ≠ h)) [x] = [] := by simp [hx]
      rw [this, List.append_nil, if_neg hx1]
      exact ih
    · have : List.filter (fun x => decide (x.1 ≠ h)) [x] = [x] := by simp [hx]
      rw [this, lastAt_snoc, ih]

/-- C18, the claim as stated fails. With the hash function that sends everything to `7` and
one replica, after `Add("p")`, `Add("q")`, `Add("s")` the point of `p` and the point of `q`
have the same hash `7` and the point of `q` was inserted after the point of `p`; the lookup
of the key `k` selects the ring point `7`, and `Get("k")` returns `s`, the peer of the last
point inserted with that hash, not `q`. -/
theorem ring_collision_third_peer :
    (New 1 (some (fun _ => 7))).pointsOf [["p"], ["q"], ["s"]].flatten =
      [(7, "p"), (7, "q"), (7, "s")] ∧
    Selects ((New 1 (some (fun _ => 7))).addAll [["p"], ["q"], ["s"]]).keys
      (((New 1 (some (fun _ => 7))).addAll [["p"], ["q"], ["s"]]).hashInt (bytesOf "k")) 7 ∧
    ((New 1 (some (fun _ => 7))).addAll [["p"], ["q"], ["s"]]).Get "k" = some "s" ∧
    ((New 1 (some (fun _ => 7))).addAll [["p"], ["q"], ["s"]]).Get "k" ≠ some "q" := by
  refine ⟨by decide, ?_, by decide, by decide⟩
  unfold Selects
  decide

/-- C18, amended. For a ring built by `New` and any `Add` calls: if a point of the peer `p`
and a point of a different peer `q` have the same hash `h`, the point of `q` was inserted
after the point of `p`, and no point inserted after the point of `q` has the hash `h`, then
for every key whose lookup selects the ring point `h`, `Get` returns `q`; and for every key
whose lookup selects another ring point `h1`, `Get` returns the peer of the last point
inserted with the hash `h1`, the same as among the points that do not have the hash `h`. -/
theorem ring_collision_last_wins (replicas : Int) (fn : Option Hash)
    (calls : List (List String)) (pre post : List (Int × String)) (h : Int) (p q : String)
    (hpts : (New replicas fn).pointsOf calls.flatten = pre ++ (h, q) :: post)
    (_hp : (h, p) ∈ pre) (_hpq : p ≠ q) (hlast : ∀ x ∈ post, x.1 ≠ h) :
    GoMap.get? ((New replicas fn).addAll calls).hashMap h = some q ∧
    (∀ key, Selects ((New replicas fn).addAll calls).keys
        (((New replicas fn).addAll calls).hashInt (bytesOf key)) h →
      ((New replicas fn).addAll calls).Get key = some q) ∧
    (∀ key h1, h1 ≠ h →
      Selects ((New replicas fn).addAll calls).keys
        (((New replicas fn).addAll calls).hashInt (bytesOf key)) h1 →
      ∃ id, lastAt (((New replicas fn).pointsOf calls.flatten).filter
          (fun x => decide (x.1 ≠ h))) h1 = some id ∧
        ((New replicas fn).addAll calls).Get key = some id) := by
  have hq : lastAt ((New replicas fn).pointsOf calls.flatten) h = some q := by
    rw [hpts]
    exact lastAt_of_last pre post h q hlast
  obtain ⟨_, _, hmap⟩ := ring_spec replicas fn calls
  refine ⟨by rw [hmap, hq], ?_, ?_⟩
  · intro key hsel
    obtain ⟨id, h1, _, h3⟩ := Get_ring replicas fn calls key h hsel
    rw [hq] at h1
    cases h1
    exact h3
  · intro key h1 hne hsel
    obtain ⟨id, h2, _, h3⟩ := Get_ring replicas fn calls key h1 hsel
    exact ⟨id, by rw [lastAt_filter_ne _ h h1 hne]; exact h2, h3⟩

theorem ring_collision_last_wins_witness :
    (New 1 (some (fun _ => 7))).pointsOf [["p"], ["q"]].flatten = [(7, "p")] ++ (7, "q") :: [] ∧
    GoMap.get? ((New 1 (some (fun _ => 7))).addAll [["p"], ["q"]]).hashMap 7 = some "q" ∧
    (∀ key, Selects ((New 1 (some (fun _ => 7))).addAll [["p"], ["q"]]).keys
        (((New 1 (some (fun _ => 7))).addAll [["p"], ["q"]]).hashInt (bytesOf key)) 7 →
      ((New 1 (some (fun _ => 7))).addAll [["p"], ["q"]]).Get key = some "q") ∧
    (∀ key h1, h1 ≠ 7 →
      Selects ((New 1 (some (fun _ => 7))).addAll [["p"], ["q"]]).keys
        (((New 1 (some (fun _ => 7))).addAll [["p"], ["q"]]).hashInt (bytesOf key)) h1 →
      ∃ id, lastAt (((New 1 (some (fun _ => 7))).pointsOf [["p"], ["q"]].flatten).filter
          (fun x => decide (x.1 ≠ 7))) h1 = some id ∧
        ((New 1 (some (fun _ => 7))).addAll [["p"], ["q"]]).Get key = some id) :=
  ⟨by decide, ring_collision_last_wins 1 (some (fun _ => 7)) [["p"], ["q"]] [(7, "p")] [] 7
    "p" "q" (by decide) (by decide) (by decide) (by decide)⟩

end consistenthash

/-! ## The coalescing executor: no caching -/

namespace singleflight

/-- C17. No caching in the coalescing executor. For a group whose map has no record for
`key`, the nil map included: `Do(key, fn)` runs `fn` once, on the state `st` it is called
in, returns the pair `fn` returned and leaves the state `fn` left; the map then has no
record for `key` and the records of all other keys are the same. A second `Do(key, fn)`
runs `fn` again, on the state the first run left, and returns what this second run
returns: two calls in sequence run `fn` twice. -/
theorem Do_no_caching {R σ : Type} (g : Group R) (key : String)
    (fn : σ → Option ((Option R × Option Error) × σ)) (st st1 st2 : σ)
    (r1 r2 : Option R × Option Error) (hidle : g.record? key = none)
    (h1 : fn st = some (r1, st1)) (h2 : fn st1 = some (r2, st2)) :
    ∃ ld1 ld2, g.Do key fn st = some (r1, ld1, st1) ∧ ld1.record? key = none ∧
      (∀ k, k ≠ key → ld1.record? k = g.record? k) ∧
      ld1.Do key fn st1 = some (r2, ld2, st2) ∧ ld2.record? key = none ∧
      (∀ k, k ≠ key → ld2.record? k = g.record? k) := by
  have step : ∀ (g0 : Group R) (s s1 : σ) (r : Option R × Option Error),
      g0.record? key = none → fn s = some (r, s1) →
      ∃ ld, g0.Do key fn s = some (r, ld, s1) ∧ ld.record? key = none ∧
        ∀ k, k ≠ key → ld.record? k = g0.record? k := by
    intro g0 s s1 r hid hfn
    obtain ⟨val, err⟩ := r
    have hm : GoMap.get? (match g0.m with | none => [] | some m => m) key = none := by
      unfold Group.record? at hid
      cases hg : g0.m with
      | none => rfl
      | some m =>
        rw [hg] at hid
        exact hid
    refine ⟨{ m := some (GoMap.delete (GoMap.set (GoMap.set
        (match g0.m with | none => [] | some m => m) key
        { done := false, val := none, err := none }) key
        { done := true, val := val, err := err }) key) }, ?_, ?_, ?_⟩
    · simp only [Group.Do, hm, hfn]
    · simp [Group.record?, GoMap.get?_delete_self]
    · intro k hk
      have hk2 : key ≠ k := fun e => hk e.symm
      simp only [Group.record?, GoMap.get?_delete_ne _ hk2, GoMap.get?_set_ne _ _ hk2]
      cases g0.m <;> rfl
  obtain ⟨ld1, a1, a2, a3⟩ := step g st st1 r1 hidle h1
  obtain ⟨ld2, b1, b2, b3⟩ := step ld1 st1 st2 r2 a2 h2
  exact ⟨ld1, ld2, a1, a2, a3, b1, b2, fun k hk => (b3 k hk).trans (a3 k hk)⟩

theorem Do_no_caching_witness :
    ∃ ld1 ld2 : Group Nat,
      ({ m := none } : Group Nat).Do "k" (fun n : Nat => some ((some n, none), n + 1)) 0 =
        some ((some 0, none), ld1, 1) ∧
      ld1.record? "k" = none ∧
      (∀ k, k ≠ "k" → ld1.record? k = ({ m := none } : Group Nat).record? k) ∧
      ld1.Do "k" (fun n : Nat => some ((some n, none), n + 1)) 1 =
        some ((some 1, none), ld2, 2) ∧
      ld2.record? "k" = none ∧
      (∀ k, k ≠ "k" → ld2.record? k = ({ m := none } : Group Nat).record? k) :=
  Do_no_caching { m := none } "k" (fun n : Nat => some ((some n, none), n + 1)) 0 1 2
    (some 0, none) (some 1, none) (by rfl) (by rfl) (by rfl)

end singleflight

/-! ## The coalescing executor under every schedule -/

namespace singleflight

variable {R σ : Type}

end singleflight
